import Mathlib

/-! Transaction envelope of `codec/std/tx.go`.

A shallow embedding of the Go package `std` (file `codec/std/tx.go`): the
`Transaction` envelope, its accessors and mutators, signer derivation,
`ValidateBasic` and the construction of sign bytes.

Conventions of the embedding.

* A Go slice is a `List`.  `make([]T, n)` is `n` zero values, and a store
  `s[i] = v` is `setIndex`, which faults when `i` is out of range.  Every
  function that executes such a store returns in `Go`, whose error case is the
  run-time panic.
* A method call on the nil interface value faults too: `Ext.GetSigners` gives
  `none` for the nil message, which a container that holds no message returns.
* A method with a pointer receiver takes the transaction and returns the
  transaction after the call.
* Code of the SDK that `tx.go` calls but that lives in other packages (the
  generated `Message` container, `AccAddress.String`, `auth.MaxGasWanted`,
  `sdk.CanonicalSignBytes`) is collected in the record `Ext`, a parameter of
  every definition that uses it.  The Canonicalizer is in addition modelled
  from the specification (`canonicalize`).

The namespace `SlashingSimulation` embeds the operation `SimulateMsgUnjail` of
`x/slashing/simulation/operations.go`.  The operation consults keepers, the
random source and the application; what they answer during one run is the
record `UnjailRun`, and the operation is a function of these answers.
-/

namespace CodecStd

/-! ## Go run time -/

/-- Run-time faults of the Go program. -/
inductive Panic where
  | indexOutOfRange (index length : Nat)
  | nilPointerDereference
  deriving DecidableEq, Repr

/-- A computation that either completes with a value or panics. -/
abbrev Go (α : Type) := Except Panic α

/-- Go `make([]T, n)`: a slice of `n` zero values (`default` is the zero value of `T`). -/
def make (α : Type) [Inhabited α] (n : Nat) : List α :=
  List.replicate n default

/-- Go `s[i] = v`: faults with "index out of range" unless `i < len(s)`. -/
def setIndex {α : Type} (s : List α) (i : Nat) (v : α) : Go (List α) :=
  if i < s.length then .ok (s.set i v) else .error (.indexOutOfRange i s.length)

/-- Go `for i, x := range xs { out[i] = f(x) }`, entered at index `i`. -/
def rangeAssign {α β : Type} (f : α → β) : List α → Nat → List β → Go (List β)
  | [], _, out => .ok out
  | x :: xs, i, out =>
    match setIndex out i (f x) with
    | .error p => .error p
    | .ok out1 => rangeAssign f xs (i + 1) out1

/-! ## Data model -/

/-- One byte. -/
abbrev Byte := Fin 256

/-- Go `[]byte`. -/
abbrev Bytes := List Byte

/-- Type `sdk.AccAddress`: a byte string. -/
abbrev AccAddress := Bytes

/-- Modelled from the spec: `sdk.Coin`, a denomination with a signed quantity
(the type declaration is not part of `tx.go`). -/
structure Coin where
  Denom : String
  Amount : Int
  deriving DecidableEq, Repr

/-- Type `sdk.Coins`. -/
abbrev Coins := List Coin

/-- Modelled from the spec: `Coins.IsAnyNegative`, true when some component of
the amount is negative (the method is not part of `tx.go`). -/
def Coins.IsAnyNegative (coins : Coins) : Bool :=
  coins.any (fun coin => decide (coin.Amount < 0))

/-- Type `auth.StdFee`: amount and gas limit (a `uint64`). -/
structure StdFee where
  Amount : Coins
  Gas : Nat
  deriving DecidableEq, Repr

/-- Modelled from the spec: `auth.NewStdFee(gas, amount)` stores both verbatim. -/
def NewStdFee (gas : Nat) (amount : Coins) : StdFee :=
  { Amount := amount, Gas := gas }

/-- Interface `sdk.Fee`, given by what its two getters return. -/
structure Fee where
  GetGas : Nat
  GetAmount : Coins
  deriving DecidableEq, Repr

/-- An `auth.StdFee` seen through the interface `sdk.Fee`. -/
def StdFee.asFee (fee : StdFee) : Fee :=
  { GetGas := fee.Gas, GetAmount := fee.Amount }

/-- Type `auth.StdSignature`: public key bytes and signature bytes.  The zero
value holds two empty byte strings. -/
structure StdSignature where
  PubKey : Bytes
  Signature : Bytes
  deriving DecidableEq, Repr

instance : Inhabited StdSignature := ⟨{ PubKey := [], Signature := [] }⟩

/-- Interface `sdk.Signature`, given by what its two getters return: the bytes
of the public key (empty for a nil key) and the signature bytes. -/
structure Signature where
  GetPubKey : Bytes
  GetSignature : Bytes
  deriving DecidableEq, Repr

instance : Inhabited Signature := ⟨{ GetPubKey := [], GetSignature := [] }⟩

/-- Modelled from the spec: `auth.NewStdSignature(pk, sig)` stores the key's
bytes and the signature bytes. -/
def NewStdSignature (pk : Bytes) (sig : Bytes) : StdSignature :=
  { PubKey := pk, Signature := sig }

/-- An `auth.StdSignature` seen through the interface `sdk.Signature`. -/
def StdSignature.asSignature (sig : StdSignature) : CodecStd.Signature :=
  { GetPubKey := sig.PubKey, GetSignature := sig.Signature }

/-- Type `auth.StdTxBase`, embedded in `Transaction`. -/
structure StdTxBase where
  Fee : StdFee
  Signatures : List StdSignature
  Memo : String
  deriving DecidableEq, Repr

/-- Modelled from the spec: `auth.NewStdTxBase(fee, sigs, memo)` stores its
arguments verbatim; a nil signature slice is the empty list. -/
def NewStdTxBase (fee : StdFee) (sigs : List StdSignature) (memo : String) : StdTxBase :=
  { Fee := fee, Signatures := sigs, Memo := memo }

/-- Type `Transaction`: the embedded `StdTxBase` and the message containers. -/
structure Transaction (Message : Type) extends StdTxBase where
  Msgs : List Message

/-- Type `auth.StdSignDocBase`, embedded in `SignDoc`. -/
structure StdSignDocBase where
  AccountNumber : Nat
  Sequence : Nat
  ChainID : String
  Memo : String
  Fee : StdFee
  deriving DecidableEq, Repr

/-- Modelled from the spec: `auth.NewStdSignDocBase(num, seq, cid, memo, fee)`
copies account number, sequence, chain id, memo and fee. -/
def NewStdSignDocBase (num seq : Nat) (cid memo : String) (fee : StdFee) : StdSignDocBase :=
  { AccountNumber := num, Sequence := seq, ChainID := cid, Memo := memo, Fee := fee }

/-- Type `SignDoc`: the embedded `StdSignDocBase` and the message containers. -/
structure SignDoc (Message : Type) extends StdSignDocBase where
  Msgs : List Message

/-! ## Errors -/

/-- The registered root errors of `sdkerrors` that `ValidateBasic` uses. -/
inductive RootError where
  | ErrInvalidRequest
  | ErrInsufficientFee
  | ErrNoSignatures
  | ErrUnauthorized
  deriving DecidableEq, Repr

/-- An argument handed to a format string. -/
inductive FmtArg where
  | uint64 (n : Nat)
  | int (n : Int)
  | coins (c : Coins)
  | addrs (l : List AccAddress)
  deriving DecidableEq, Repr

/-- An `sdkerrors` error: its root, and the description it was wrapped with. -/
structure SdkError where
  root : RootError
  format : String
  args : List FmtArg
  deriving DecidableEq, Repr

/-- A bare root error, not wrapped. -/
def RootError.bare (root : RootError) : SdkError :=
  { root := root, format := "", args := [] }

/-- Go `sdkerrors.Wrapf(err, format, args...)`. -/
def Wrapf (root : RootError) (format : String) (args : List FmtArg) : SdkError :=
  { root := root, format := format, args := args }

/-! ## External collaborators -/

/-- What `tx.go` calls in other packages.  `Msg` is `sdk.Msg`, `Message` the
generated message container, `ε` the errors these collaborators return. -/
structure Ext (Msg Message ε : Type) where
  /-- Method `(*Message).SetMsg` on a fresh container: the filled container, or an error. -/
  SetMsg : Msg → Except ε Message
  /-- Method `Message.GetMsg`. -/
  GetMsg : Message → Msg
  /-- Method `sdk.Msg.GetSigners`: the signer list of the message; `none` for the
  nil interface value, on which the method call faults. -/
  GetSigners : Msg → Option (List AccAddress)
  /-- Method `AccAddress.String`, the canonical string form of an address. -/
  String : AccAddress → String
  /-- Constant `auth.MaxGasWanted`. -/
  MaxGasWanted : Nat
  /-- Function `sdk.CanonicalSignBytes`. -/
  CanonicalSignBytes : SignDoc Message → Except ε Bytes

/-! ## The functions of `tx.go` -/

section Code

variable {Msg Message ε : Type} [Inhabited Msg] [Inhabited Message]

/-- The loop of `SetMsgs`, entered at index `i`: wrap each message and store
it; the first wrap error ends the loop and is returned. -/
def setMsgsLoop (X : Ext Msg Message ε) :
    List Msg → Nat → List Message → Go (Except ε (List Message))
  | [], _, msgs => .ok (.ok msgs)
  | msg :: rest, i, msgs =>
    match X.SetMsg msg with
    | .error err => .ok (.error err)
    | .ok m =>
      match setIndex msgs i m with
      | .error p => .error p
      | .ok msgs1 => setMsgsLoop X rest (i + 1) msgs1

/-- Method `(*Transaction).SetMsgs`: the transaction after the call and the
returned error (`none` is Go's `nil`). -/
def Transaction.SetMsgs (X : Ext Msg Message ε) (tx : Transaction Message)
    (sdkMsgs : List Msg) : Go (Transaction Message × Option ε) :=
  match setMsgsLoop X sdkMsgs 0 (make Message sdkMsgs.length) with
  | .error p => .error p
  | .ok (.error err) => .ok (tx, some err)
  | .ok (.ok msgs) => .ok ({ tx with Msgs := msgs }, none)

/-- Function `NewTransaction`: the new transaction, or the error of `SetMsgs`. -/
def NewTransaction (X : Ext Msg Message ε) (fee : StdFee) (memo : String)
    (sdkMsgs : List Msg) : Go (Except ε (Transaction Message)) :=
  let tx : Transaction Message := { toStdTxBase := NewStdTxBase fee [] memo, Msgs := [] }
  match tx.SetMsgs X sdkMsgs with
  | .error p => .error p
  | .ok (_, some err) => .ok (.error err)
  | .ok (tx1, none) => .ok (.ok tx1)

/-- Method `Transaction.GetMsgs`. -/
def Transaction.GetMsgs (X : Ext Msg Message ε) (tx : Transaction Message) : Go (List Msg) :=
  rangeAssign X.GetMsg tx.Msgs 0 (make Msg tx.Msgs.length)

/-- An implementation of Go's `map[string]bool` on the carrier `σ`, by the three
operations `GetSigners` uses: the empty map, the lookup `m[k]` and the store
`m[k] = v`.  How the carrier keeps or orders its entries is left open. -/
structure GoMap (σ : Type) where
  empty : σ
  lookup : σ → String → Bool
  store : σ → String → Bool → σ

/-- The behaviour of a Go map: a lookup in the empty map gives `false`, a lookup
after a store gives the stored value at the stored key and the old answer at
every other key. -/
structure GoMap.Lawful {σ : Type} (M : GoMap σ) : Prop where
  lookup_empty : ∀ k, M.lookup M.empty k = false
  lookup_store : ∀ m k v key, M.lookup (M.store m k v) key = if key = k then v else M.lookup m key

/-- The map `seen` of `GetSigners`, by what a lookup returns. -/
abbrev SeenMap := String → Bool

/-- Go `map[string]bool{}`: every lookup gives `false`. -/
def SeenMap.empty : SeenMap := fun _ => false

/-- Go `seen[k] = v`. -/
def SeenMap.store (seen : SeenMap) (k : String) (v : Bool) : SeenMap :=
  fun key => if key = k then v else seen key

/-- The Go map given by its lookups. -/
def SeenMap.impl : GoMap SeenMap :=
  { empty := SeenMap.empty, lookup := fun seen k => seen k, store := SeenMap.store }

/-- A Go map kept as the list of its stores, newest first. -/
def storeLog : GoMap (List (String × Bool)) :=
  { empty := [],
    lookup := fun m k => (m.lookup k).getD false,
    store := fun m k v => (k, v) :: m }

/-- The inner loop of `GetSigners` over the signers of one message, on the
state `(signers, seen)`. -/
def getSignersInner {σ : Type} (M : GoMap σ) (X : Ext Msg Message ε) :
    List AccAddress → List AccAddress × σ → List AccAddress × σ
  | [], st => st
  | addr :: rest, (signers, seen) =>
    if !M.lookup seen (X.String addr) then
      getSignersInner M X rest (signers ++ [addr], M.store seen (X.String addr) true)
    else
      getSignersInner M X rest (signers, seen)

/-- The outer loop of `GetSigners` over the messages.  The call
`msg.GetSigners()` faults on the nil interface value. -/
def getSignersOuter {σ : Type} (M : GoMap σ) (X : Ext Msg Message ε) :
    List Msg → List AccAddress × σ → Go (List AccAddress × σ)
  | [], st => .ok st
  | msg :: rest, st =>
    match X.GetSigners msg with
    | none => .error .nilPointerDereference
    | some addrs => getSignersOuter M X rest (getSignersInner M X addrs st)

/-- Method `Transaction.GetSigners`, run with the implementation `M` of the map
`seen`. -/
def Transaction.GetSignersWith {σ : Type} (M : GoMap σ) (X : Ext Msg Message ε)
    (tx : Transaction Message) : Go (List AccAddress) :=
  match tx.GetMsgs X with
  | .error p => .error p
  | .ok msgs =>
    match getSignersOuter M X msgs ([], M.empty) with
    | .error p => .error p
    | .ok st => .ok st.1

/-- Method `Transaction.GetSigners`. -/
def Transaction.GetSigners (X : Ext Msg Message ε) (tx : Transaction Message) :
    Go (List AccAddress) :=
  tx.GetSignersWith SeenMap.impl X

/-- Method `Transaction.GetSignatures`. -/
def Transaction.GetSignatures (tx : Transaction Message) : Go (List Signature) :=
  rangeAssign StdSignature.asSignature tx.Signatures 0 (make Signature tx.Signatures.length)

/-- Method `(*Transaction).SetSignatures`: the transaction after the call.  The
new slice is allocated with the length of the signatures the transaction
holds, `len(tx.Signatures)`, as in the source. -/
def Transaction.SetSignatures (tx : Transaction Message) (sdkSigs : List Signature) :
    Go (Transaction Message) :=
  match rangeAssign (fun sig => NewStdSignature sig.GetPubKey sig.GetSignature) sdkSigs 0
      (make StdSignature tx.Signatures.length) with
  | .error p => .error p
  | .ok sigs => .ok { tx with Signatures := sigs }

/-- Method `Transaction.ValidateBasic`: the returned error (`none` is `nil`). -/
def Transaction.ValidateBasic (X : Ext Msg Message ε) (tx : Transaction Message) :
    Go (Option SdkError) :=
  match tx.GetSignatures with
  | .error p => .error p
  | .ok stdSigs =>
    if tx.Fee.Gas > X.MaxGasWanted then
      .ok (some (Wrapf .ErrInvalidRequest "invalid gas supplied; %d > %d"
        [.uint64 tx.Fee.Gas, .uint64 X.MaxGasWanted]))
    else if tx.Fee.Amount.IsAnyNegative then
      .ok (some (Wrapf .ErrInsufficientFee "invalid fee provided: %s" [.coins tx.Fee.Amount]))
    else if stdSigs.length = 0 then
      .ok (some RootError.ErrNoSignatures.bare)
    else
      match tx.GetSigners X with
      | .error p => .error p
      | .ok signers =>
        if stdSigs.length ≠ signers.length then
          match tx.GetSigners X with
          | .error p => .error p
          | .ok signers1 =>
            .ok (some (Wrapf .ErrUnauthorized "wrong number of signers; expected %d, got %d"
              [.addrs signers1, .int stdSigs.length]))
        else
          .ok none

/-- Method `Transaction.GetFee`. -/
def Transaction.GetFee (tx : Transaction Message) : Fee :=
  tx.Fee.asFee

/-- Method `(*Transaction).SetFee`. -/
def Transaction.SetFee (tx : Transaction Message) (fee : Fee) : Transaction Message :=
  { tx with Fee := NewStdFee fee.GetGas fee.GetAmount }

/-- Method `Transaction.GetMemo`. -/
def Transaction.GetMemo (tx : Transaction Message) : String :=
  tx.Memo

/-- Method `(*Transaction).SetMemo`. -/
def Transaction.SetMemo (tx : Transaction Message) (memo : String) : Transaction Message :=
  { tx with Memo := memo }

/-- Function `NewSignDoc`. -/
def NewSignDoc (num seq : Nat) (cid memo : String) (fee : StdFee) (msgs : List Message) :
    SignDoc Message :=
  { toStdSignDocBase := NewStdSignDocBase num seq cid memo fee, Msgs := msgs }

/-- Method `(*SignDoc).CanonicalSignBytes`. -/
def SignDoc.CanonicalSignBytes (X : Ext Msg Message ε) (sd : SignDoc Message) :
    Except ε Bytes :=
  X.CanonicalSignBytes sd

/-- Method `Transaction.CanonicalSignBytes`. -/
def Transaction.CanonicalSignBytes (X : Ext Msg Message ε) (tx : Transaction Message)
    (cid : String) (num seq : Nat) : Except ε Bytes :=
  (NewSignDoc num seq cid tx.Memo tx.Fee tx.Msgs).CanonicalSignBytes X

end Code

/-! ## The specification's view -/

section SpecView

variable {Msg Message ε : Type}

/-- Specification of wrapping: "wraps each raw message via MessageContainer.wrap
in input order"; the first failure is the result. -/
def wrapAll (X : Ext Msg Message ε) : List Msg → Except ε (List Message)
  | [] => .ok []
  | msg :: rest =>
    match X.SetMsg msg with
    | .error err => .error err
    | .ok m =>
      match wrapAll X rest with
      | .error err => .error err
      | .ok ms => .ok (m :: ms)

/-- Specification of a well-formed message sequence: every container holds a
message, so that each has its own signer list. -/
def holdMessages (X : Ext Msg Message ε) (msgs : List Message) : Prop :=
  ∀ m ∈ msgs, X.GetSigners (X.GetMsg m) ≠ none

/-- Specification of the signer mentions: the concatenation, in message order,
of each message's own signer list (a container that holds no message
contributes none). -/
def signerMentions (X : Ext Msg Message ε) (msgs : List Message) : List AccAddress :=
  (msgs.map (fun m => (X.GetSigners (X.GetMsg m)).getD [])).flatten

/-- First-occurrence deduplication as a walk: going through the list with the
addresses of all earlier positions at hand, an address is kept exactly when no
earlier one carries its canonical string form. -/
def keepFirst (str : AccAddress → String) : List AccAddress → List AccAddress → List AccAddress
  | _, [] => []
  | earlier, addr :: rest =>
    if earlier.any (fun a => decide (str a = str addr)) then
      keepFirst str (earlier ++ [addr]) rest
    else
      addr :: keepFirst str (earlier ++ [addr]) rest

/-- Specification of first-occurrence deduplication, by positions: the entry at
position `i` is kept exactly when no position before `i` carries its canonical
string form; the kept entries stay in their order. -/
def dedupFirstOccurrence (str : AccAddress → String) (l : List AccAddress) : List AccAddress :=
  (l.enum.filter (fun p => (l.take p.1).all (fun a => decide (str a ≠ str p.2)))).map Prod.snd

/-- Specification of `GetSigners`: the first-occurrence deduplication of the
signer mentions. -/
def firstOccurrences (X : Ext Msg Message ε) (msgs : List Message) : List AccAddress :=
  dedupFirstOccurrence X.String (signerMentions X msgs)

end SpecView

/-! ## The Canonicalizer, from the specification -/

section Canonicalizer

variable {Message : Type}

/-- The failure of the Canonicalizer, `SerializationFailure` in the taxonomy of
the specification. -/
inductive CanonError where
  | SerializationFailure
  deriving DecidableEq, Repr

/-- Modelled from the spec: the value of one field of a SignDoc as a producer
hands it to the Canonicalizer (absent from the sources: `sdk.CanonicalSignBytes`
and the encoding it relies on).  Account number and sequence are unsigned
integers, chain id and memo strings, the fee a gas limit with its amount, the
messages the sequence of their serialized forms, `none` for a message that has
no serialized form. -/
inductive FieldValue where
  | uint (n : Nat)
  | text (s : String)
  | fee (gas : Nat) (amount : Coins)
  | msgs (serialized : List (Option Bytes))
  deriving DecidableEq, Repr

/-- Modelled from the spec: a field "holding its type's zero/default value
(e.g., empty memo, zero sequence)". -/
def FieldValue.isDefault : FieldValue → Bool
  | .uint n => decide (n = 0)
  | .text s => decide (s = "")
  | .fee gas amount => decide (gas = 0) && amount.isEmpty
  | .msgs serialized => serialized.isEmpty

/-- Modelled from the spec: the "fixed field ordering derived from the logical
schema", the attributes of a SignDoc in the order of the data model: account
number, sequence number, chain identifier, memo, fee, messages. -/
def schema : List String :=
  ["account_number", "sequence", "chain_id", "memo", "fee", "msgs"]

/-- Modelled from the spec: a SignDoc as some producer holds it, its named
fields in whatever order the producer built or iterates them. -/
abbrev Representation := List (String × FieldValue)

/-- Modelled from the spec: the fields of a `SignDoc` in the order `NewSignDoc`
receives them; `ser` is the serializer of the message registry. -/
def signDocFields (ser : Message → Option Bytes) (sd : SignDoc Message) : Representation :=
  [("account_number", .uint sd.AccountNumber),
   ("sequence", .uint sd.Sequence),
   ("chain_id", .text sd.ChainID),
   ("memo", .text sd.Memo),
   ("fee", .fee sd.Fee.Gas sd.Fee.Amount),
   ("msgs", .msgs (sd.Msgs.map ser))]

/-- Modelled from the spec: a SignDoc the encoder cannot render, one with a
message that has no serialized form. -/
def malformed (rep : Representation) : Bool :=
  rep.any (fun field =>
    match field.2 with
    | .msgs serialized => serialized.any (fun m => m.isNone)
    | _ => false)

/-- Modelled from the spec: the Canonicalizer (absent from the sources:
`sdk.CanonicalSignBytes`).  It fails on a malformed SignDoc; otherwise it walks
the schema in its fixed order, leaves out a field that is missing or holds its
default value, and concatenates the renderings of the others.  How one field is
rendered to bytes, which the specification leaves open, is the parameter
`render`. -/
def canonicalize (render : String → FieldValue → Bytes) (rep : Representation) :
    Except CanonError Bytes :=
  if malformed rep then
    .error .SerializationFailure
  else
    .ok (schema.filterMap (fun name =>
      match rep.lookup name with
      | none => none
      | some value => if value.isDefault then none else some (render name value))).flatten

/-- Modelled from the spec: `sdk.CanonicalSignBytes` on a `SignDoc`, the
Canonicalizer on its fields. -/
def specCanonicalSignBytes (render : String → FieldValue → Bytes)
    (ser : Message → Option Bytes) (sd : SignDoc Message) : Except CanonError Bytes :=
  canonicalize render (signDocFields ser sd)

end Canonicalizer

/-! ## A small instance of the external collaborators -/

/-- A message universe for examples: a registered message is given by its
signer list; `unregistered` is a message the container cannot hold; `nil` is
the nil interface value, which an empty container returns. -/
inductive ExMsg where
  | nil
  | registered (signers : List AccAddress)
  | unregistered
  deriving DecidableEq, Repr

instance : Inhabited ExMsg := ⟨ExMsg.nil⟩

/-- The container of the example universe: the message it holds, if any. -/
structure ExMessage where
  held : Option (List AccAddress)
  deriving DecidableEq, Repr

instance : Inhabited ExMessage := ⟨{ held := none }⟩

/-- A string form of an address for examples: one character per byte. -/
def exString (addr : AccAddress) : String :=
  String.mk (addr.map (fun b => Char.ofNat b.val))

/-- The example collaborators. -/
def exExt : Ext ExMsg ExMessage String where
  SetMsg := fun msg =>
    match msg with
    | .registered signers => .ok { held := some signers }
    | .nil => .ok { held := none }
    | .unregistered => .error "can not encode value as message Message"
  GetMsg := fun m =>
    match m.held with
    | some signers => .registered signers
    | none => .nil
  GetSigners := fun msg =>
    match msg with
    | .registered signers => some signers
    | .unregistered => some []
    | .nil => none
  String := exString
  MaxGasWanted := 2 ^ 63 - 1
  CanonicalSignBytes := fun sd =>
    if sd.ChainID = "" then .error "empty chain id"
    else .ok (sd.Msgs.map (fun m => Fin.ofNat (m.held.getD []).length))

/-- An example fee: gas 200000, amount 5 atom. -/
def exFee : StdFee := { Amount := [{ Denom := "atom", Amount := 5 }], Gas := 200000 }

/-- An example signature. -/
def exSig : Signature := { GetPubKey := [2, 7], GetSignature := [9, 9, 9] }

/-- Three example addresses. -/
def addrA : AccAddress := [1]

/-- The second example address. -/
def addrB : AccAddress := [2]

/-- The third example address. -/
def addrC : AccAddress := [3]

/-- An example transaction: no messages, no signatures. -/
def exTxEmpty : Transaction ExMessage :=
  { Fee := exFee, Signatures := [], Memo := "memo", Msgs := [] }

/-- An example transaction: messages with signers [A, B] and [B, C], two signatures attached. -/
def exTx : Transaction ExMessage :=
  { Fee := exFee,
    Signatures := [{ PubKey := [1], Signature := [5] }, { PubKey := [2], Signature := [6] }],
    Memo := "memo",
    Msgs := [{ held := some [addrA, addrB] }, { held := some [addrB, addrC] }] }

/-- The example collaborators with the gas bound of the specification's
scenario, 10000000. -/
def exExtSmall : Ext ExMsg ExMessage String :=
  { exExt with MaxGasWanted := 10000000 }

/-- An example transaction: gas 20000000, no signatures, no messages. -/
def exTxGas : Transaction ExMessage :=
  { Fee := { Amount := [], Gas := 20000000 }, Signatures := [], Memo := "", Msgs := [] }

/-- An example transaction: one message with signers [A, B] and [B, C] in
`exTx`, here with its signatures removed. -/
def exTxUnsigned : Transaction ExMessage :=
  { exTx with Signatures := [] }

/-- An example transaction: two messages that both name the signer A, one
signature attached. -/
def exTxSameSigner : Transaction ExMessage :=
  { Fee := exFee,
    Signatures := [{ PubKey := [1], Signature := [5] }],
    Memo := "memo",
    Msgs := [{ held := some [addrA] }, { held := some [addrA] }] }

/-- An example transaction: two messages naming the signers A and B, one
signature attached. -/
def exTxTwoSigners : Transaction ExMessage :=
  { Fee := exFee,
    Signatures := [{ PubKey := [1], Signature := [5] }],
    Memo := "memo",
    Msgs := [{ held := some [addrA] }, { held := some [addrB] }] }

/-- An example transaction: no messages, one signature attached. -/
def exTxNoMsgs : Transaction ExMessage :=
  { Fee := exFee, Signatures := [{ PubKey := [1], Signature := [5] }], Memo := "memo",
    Msgs := [] }

/-- An example rendering of a field: its name and a tag of its kind. -/
def exRender (name : String) (value : FieldValue) : Bytes :=
  (name.data.map (fun c => Fin.ofNat c.toNat))
    ++ (match value with
        | .uint n => [0, Fin.ofNat n]
        | .text s => [1, Fin.ofNat s.length]
        | .fee gas _ => [2, Fin.ofNat gas]
        | .msgs serialized => 3 :: (serialized.map (fun m => m.getD [])).flatten)

/-- An example serializer: the number of signers of the message held. -/
def exSer (m : ExMessage) : Option Bytes :=
  m.held.map (fun signers => [Fin.ofNat signers.length])

/-- The example collaborators with the Canonicalizer of the specification. -/
def exExtCanon : Ext ExMsg ExMessage CanonError where
  SetMsg := fun msg =>
    match msg with
    | .registered signers => .ok { held := some signers }
    | .nil => .ok { held := none }
    | .unregistered => .error .SerializationFailure
  GetMsg := exExt.GetMsg
  GetSigners := exExt.GetSigners
  String := exString
  MaxGasWanted := 2 ^ 63 - 1
  CanonicalSignBytes := specCanonicalSignBytes exRender exSer

/-- An example transaction: one container that holds no message, one signature
attached. -/
def exTxEmptyContainer : Transaction ExMessage :=
  { Fee := exFee, Signatures := [{ PubKey := [1], Signature := [5] }], Memo := "memo",
    Msgs := [{ held := none }] }

end CodecStd

/-! ## The operation `SimulateMsgUnjail` of `x/slashing/simulation/operations.go` -/

namespace SlashingSimulation

open CodecStd (Go Panic Bytes Coins)

/-- An instant of type `time.Time`, counted in nanoseconds. -/
abbrev Time := Int

/-- A staking validator, by what the operation reads of it: `GetOperator`,
`IsJailed` and `GetMinSelfDelegation`. -/
structure Validator where
  OperatorAddress : Bytes
  Jailed : Bool
  MinSelfDelegation : Int
  deriving DecidableEq, Repr

/-- Type `types.ValidatorSigningInfo`, by the two fields the operation reads. -/
structure ValidatorSigningInfo where
  Tombstoned : Bool
  JailedUntil : Time
  deriving DecidableEq, Repr

/-- A delegation, by its shares (the integer under the decimal). -/
structure Delegation where
  Shares : Int
  deriving DecidableEq, Repr

/-- A simulation account, by its address. -/
structure SimAccount where
  Address : Bytes
  deriving DecidableEq, Repr

/-- An account of the account keeper, by what the operation reads of it. -/
structure AuthAccount where
  Address : Bytes
  AccountNumber : Nat
  Sequence : Nat
  deriving DecidableEq, Repr

/-- Type `sdk.Result`, by its log. -/
structure Result where
  Log : String
  deriving DecidableEq, Repr

/-- Type `types.MsgUnjail`. -/
structure MsgUnjail where
  ValidatorAddr : Bytes
  deriving DecidableEq, Repr

/-- Function `types.NewMsgUnjail`. -/
def NewMsgUnjail (validatorAddr : Bytes) : MsgUnjail :=
  { ValidatorAddr := validatorAddr }

/-- An operation message, by the call that built it: `simulation2.NoOpMsg(route)`
or `simulation2.NewOperationMsg(msg, ok, comment)`. -/
inductive OperationMsg where
  | NoOpMsg (route : String)
  | NewOperationMsg (msg : MsgUnjail) (ok : Bool) (comment : String)
  deriving DecidableEq, Repr

/-- The field `OK` of an operation message: `NoOpMsg` builds it with `false`,
`NewOperationMsg` with its argument `ok`. -/
def OperationMsg.OK : OperationMsg → Bool
  | .NoOpMsg _ => false
  | .NewOperationMsg _ ok _ => ok

/-- A future operation, by its block height; the operation never returns one. -/
structure FutureOperation where
  BlockHeight : Int
  deriving DecidableEq, Repr

/-- What `operations.go` uses of other packages without consulting any state. -/
structure SimExt where
  /-- Constant `types.ModuleName`. -/
  ModuleName : String
  /-- The value of `validator.TokensFromShares(selfDel.GetShares()).TruncateInt()`. -/
  SelfDelegationTokens : Validator → Delegation → Int

/-- The answers of the collaborators during one run of the operation. -/
structure UnjailRun where
  /-- Answer of `stakingkeeper.RandomValidator`; `none` when `ok` is false. -/
  validator : Option Validator
  /-- Answer of `simulation2.FindAccount`; `none` when `found` is false. -/
  simAccount : Option SimAccount
  /-- Answer of `k.GetValidatorSigningInfo`; `none` when `found` is false. -/
  info : Option ValidatorSigningInfo
  /-- Answer of `sk.Delegation`; `none` is nil. -/
  selfDel : Option Delegation
  /-- Answer of `ak.GetAccount`; `none` is nil. -/
  account : Option AuthAccount
  /-- Answer of `simulation2.RandomFees`: the fees, or an error. -/
  fees : Except String Coins
  /-- The time of the block header of the context. -/
  blockTime : Time
  /-- Result returned by `app.Deliver`; `none` is nil. -/
  res : Option Result
  /-- Error returned by `app.Deliver`; `none` is nil. -/
  err : Option String

/-- The tail of `SimulateMsgUnjail` from the delivery of the transaction on
(source lines 99 to 127). -/
def afterDeliver (S : SimExt) (run : UnjailRun) (validator : Validator)
    (info : ValidatorSigningInfo) (selfDel : Delegation) (msg : MsgUnjail) :
    Go (OperationMsg × List FutureOperation × Option String) :=
  if info.Tombstoned
      || decide (run.blockTime < info.JailedUntil)
      || decide (S.SelfDelegationTokens validator selfDel < validator.MinSelfDelegation) then
    if run.res.isSome && run.err.isNone then
      if info.Tombstoned then
        .ok (.NewOperationMsg msg true "", [],
          some "validator should not have been unjailed if validator tombstoned")
      else if run.blockTime < info.JailedUntil then
        .ok (.NewOperationMsg msg true "", [],
          some "validator unjailed while validator still in jail period")
      else if S.SelfDelegationTokens validator selfDel < validator.MinSelfDelegation then
        .ok (.NewOperationMsg msg true "", [],
          some "validator unjailed even though self-delegation too low")
      else
        .ok (.NewOperationMsg msg false "", [], none)
    else
      .ok (.NewOperationMsg msg false "", [], none)
  else
    match run.err with
    | some _ =>
      match run.res with
      | none => .error .nilPointerDereference
      | some res => .ok (.NoOpMsg S.ModuleName, [], some res.Log)
    | none => .ok (.NewOperationMsg msg true "", [], none)

/-- The operation returned by `SimulateMsgUnjail`, as a function of the answers
of its collaborators: the operation message, the future operations and the
error (`none` is nil). -/
def SimulateMsgUnjail (S : SimExt) (run : UnjailRun) :
    Go (OperationMsg × List FutureOperation × Option String) :=
  match run.validator with
  | none => .ok (.NoOpMsg S.ModuleName, [], none)
  | some validator =>
    match run.simAccount with
    | none => .ok (.NoOpMsg S.ModuleName, [], none)
    | some _ =>
      if !validator.Jailed then
        .ok (.NoOpMsg S.ModuleName, [], none)
      else
        match run.info with
        | none => .ok (.NoOpMsg S.ModuleName, [], none)
        | some info =>
          match run.selfDel with
          | none => .ok (.NoOpMsg S.ModuleName, [], none)
          | some selfDel =>
            match run.account with
            | none => .error .nilPointerDereference
            | some _ =>
              match run.fees with
              | .error err => .ok (.NoOpMsg S.ModuleName, [], some err)
              | .ok _ =>
                afterDeliver S run validator info selfDel (NewMsgUnjail validator.OperatorAddress)

/-- Example: tokens are the shares. -/
def exSimExt : SimExt :=
  { ModuleName := "slashing", SelfDelegationTokens := fun _ selfDel => selfDel.Shares }

/-- Example run: a jailed validator that is not tombstoned, a block time before
the end of the jail period, and a delivery that succeeded. -/
def exRun : UnjailRun :=
  { validator := some { OperatorAddress := [1], Jailed := true, MinSelfDelegation := 10 },
    simAccount := some { Address := [1] },
    info := some { Tombstoned := false, JailedUntil := 500 },
    selfDel := some { Shares := 3 },
    account := some { Address := [1], AccountNumber := 0, Sequence := 4 },
    fees := .ok [],
    blockTime := 100,
    res := some { Log := "" },
    err := none }

end SlashingSimulation

namespace CodecStd

/-! ## Lemmas on the Go run time -/

section Runtime

variable {α β : Type}

theorem make_length [Inhabited α] (n : Nat) : (make α n).length = n := by
  simp [make]

theorem setIndex_middle (pre rest : List α) (m v : α) :
    setIndex (pre ++ m :: rest) pre.length v = .ok (pre ++ v :: rest) := by
  simp [setIndex]

/-- The loop overwrites exactly the window it walks over. -/
theorem rangeAssign_window (f : α → β) (xs : List α) :
    ∀ (pre mid post : List β), mid.length = xs.length →
      rangeAssign f xs pre.length (pre ++ mid ++ post) = .ok (pre ++ xs.map f ++ post) := by
  induction xs with
  | nil =>
    intro pre mid post h
    have hm : mid = [] := List.length_eq_zero.mp h
    simp [rangeAssign, hm]
  | cons x xs ih =>
    intro pre mid post h
    cases mid with
    | nil => simp at h
    | cons m mid =>
      have hset : setIndex (pre ++ (m :: mid) ++ post) pre.length (f x)
          = .ok (pre ++ f x :: (mid ++ post)) := by
        have := setIndex_middle pre (mid ++ post) m (f x)
        simpa using this
      have hlen : mid.length = xs.length := by simpa using h
      have := ih (pre ++ [f x]) mid post hlen
      simp only [rangeAssign, hset]
      simpa using this

/-- The loop faults as soon as it walks past the end of the slice. -/
theorem rangeAssign_overrun (f : α → β) (xs : List α) :
    ∀ (i : Nat) (out : List β), i ≤ out.length → out.length < i + xs.length →
      rangeAssign f xs i out = .error (.indexOutOfRange out.length out.length) := by
  induction xs with
  | nil => intro i out h1 h2; simp at h2; omega
  | cons x xs ih =>
    intro i out h1 h2
    by_cases hi : i < out.length
    · have hset : setIndex out i (f x) = .ok (out.set i (f x)) := by simp [setIndex, hi]
      have := ih (i + 1) (out.set i (f x)) (by simpa using hi) (by simp at h2 ⊢; omega)
      simp only [rangeAssign, hset]
      simpa using this
    · have hi2 : i = out.length := by omega
      simp [rangeAssign, setIndex, hi2]

/-- A slice as long as the input is overwritten whole. -/
theorem rangeAssign_make [Inhabited β] (f : α → β) (xs : List α) :
    rangeAssign f xs 0 (make β xs.length) = .ok (xs.map f) := by
  have := rangeAssign_window f xs [] (make β xs.length) [] (make_length _)
  simpa using this

/-- A longer slice keeps its zero values behind the written window. -/
theorem rangeAssign_make_le [Inhabited β] (f : α → β) (xs : List α) (n : Nat)
    (h : xs.length ≤ n) :
    rangeAssign f xs 0 (make β n) = .ok (xs.map f ++ List.replicate (n - xs.length) default) := by
  have hsplit : make β n = [] ++ make β xs.length ++ List.replicate (n - xs.length) default := by
    simp only [make, List.nil_append]
    rw [← List.replicate_add]
    congr 1
    omega
  rw [hsplit]
  have := rangeAssign_window f xs [] (make β xs.length)
    (List.replicate (n - xs.length) default) (make_length _)
  simpa using this

/-- A shorter slice makes the loop fault. -/
theorem rangeAssign_make_lt [Inhabited β] (f : α → β) (xs : List α) (n : Nat)
    (h : n < xs.length) :
    rangeAssign f xs 0 (make β n) = .error (.indexOutOfRange n n) := by
  have := rangeAssign_overrun f xs 0 (make β n) (Nat.zero_le _) (by simpa [make_length] using h)
  simpa [make_length] using this

end Runtime

/-! ## Accessors and mutators run to completion (or fault) -/

section Accessors

variable {Msg Message ε : Type}

theorem GetSignatures_eq (tx : Transaction Message) :
    tx.GetSignatures = .ok (tx.Signatures.map StdSignature.asSignature) := by
  simp [Transaction.GetSignatures, rangeAssign_make]

theorem GetMsgs_eq [Inhabited Msg] (X : Ext Msg Message ε) (tx : Transaction Message) :
    tx.GetMsgs X = .ok (tx.Msgs.map X.GetMsg) := by
  simp [Transaction.GetMsgs, rangeAssign_make]

/-- Within bounds, `SetSignatures` writes the new signatures over the front of a
slice of the old length; the positions behind them keep the zero value. -/
theorem SetSignatures_le (tx : Transaction Message) (sdkSigs : List Signature)
    (h : sdkSigs.length ≤ tx.Signatures.length) :
    tx.SetSignatures sdkSigs = .ok { tx with
      Signatures := sdkSigs.map (fun sig => NewStdSignature sig.GetPubKey sig.GetSignature)
        ++ List.replicate (tx.Signatures.length - sdkSigs.length) default } := by
  simp [Transaction.SetSignatures, rangeAssign_make_le _ _ _ h]

/-- With more new signatures than old ones, `SetSignatures` faults. -/
theorem SetSignatures_lt (tx : Transaction Message) (sdkSigs : List Signature)
    (h : tx.Signatures.length < sdkSigs.length) :
    tx.SetSignatures sdkSigs
      = .error (.indexOutOfRange tx.Signatures.length tx.Signatures.length) := by
  simp [Transaction.SetSignatures, rangeAssign_make_lt _ _ _ h]

/-- The loop of `SetMsgs` overwrites the window it walks over with the wrapped
messages, or stops at the first wrap error. -/
theorem setMsgsLoop_window (X : Ext Msg Message ε) (sdkMsgs : List Msg) :
    ∀ (pre mid post : List Message), mid.length = sdkMsgs.length →
      setMsgsLoop X sdkMsgs pre.length (pre ++ mid ++ post)
        = .ok (match wrapAll X sdkMsgs with
            | .error err => .error err
            | .ok ms => .ok (pre ++ ms ++ post)) := by
  induction sdkMsgs with
  | nil =>
    intro pre mid post h
    have hm : mid = [] := List.length_eq_zero.mp h
    simp [setMsgsLoop, wrapAll, hm]
  | cons msg rest ih =>
    intro pre mid post h
    cases mid with
    | nil => simp at h
    | cons m0 mid =>
      have hlen : mid.length = rest.length := by simpa using h
      cases hw : X.SetMsg msg with
      | error err => simp [setMsgsLoop, wrapAll, hw]
      | ok m =>
        have hset : setIndex (pre ++ (m0 :: mid) ++ post) pre.length m
            = .ok (pre ++ m :: (mid ++ post)) := by
          have := setIndex_middle pre (mid ++ post) m0 m
          simpa using this
        have := ih (pre ++ [m]) mid post hlen
        simp only [setMsgsLoop, wrapAll, hw, hset]
        cases hr : wrapAll X rest with
        | error err => simpa [hr] using this
        | ok ms => simpa [hr] using this

/-- Method `SetMsgs` never faults: it installs the wrapped messages, or returns
the first wrap error and the transaction as it was. -/
theorem SetMsgs_eq [Inhabited Message] (X : Ext Msg Message ε) (tx : Transaction Message) (sdkMsgs : List Msg) :
    tx.SetMsgs X sdkMsgs
      = .ok (match wrapAll X sdkMsgs with
          | .error err => (tx, some err)
          | .ok ms => ({ tx with Msgs := ms }, none)) := by
  have := setMsgsLoop_window X sdkMsgs [] (make Message sdkMsgs.length) [] (make_length _)
  simp only [List.nil_append, List.append_nil, List.length_nil] at this
  simp only [Transaction.SetMsgs, this]
  cases wrapAll X sdkMsgs <;> rfl

/-- A list whose messages all wrap is wrapped position by position. -/
theorem wrapAll_ok_iff (X : Ext Msg Message ε) (sdkMsgs : List Msg) (ms : List Message) :
    wrapAll X sdkMsgs = .ok ms ↔ List.Forall₂ (fun msg m => X.SetMsg msg = .ok m) sdkMsgs ms := by
  induction sdkMsgs generalizing ms with
  | nil =>
    constructor
    · intro h
      simp only [wrapAll, Except.ok.injEq] at h
      subst h
      exact List.Forall₂.nil
    · intro h
      cases h
      rfl
  | cons msg rest ih =>
    constructor
    · intro h
      cases hw : X.SetMsg msg with
      | error err => simp [wrapAll, hw] at h
      | ok m =>
        cases hr : wrapAll X rest with
        | error err => simp [wrapAll, hw, hr] at h
        | ok ms1 =>
          simp only [wrapAll, hw, hr, Except.ok.injEq] at h
          subst h
          exact List.Forall₂.cons hw ((ih ms1).mp hr)
    · intro h
      cases h with
      | cons h1 h2 =>
        simp [wrapAll, h1, (ih _).mpr h2]

/-- When every message wraps, wrapping the list succeeds. -/
theorem wrapAll_total (X : Ext Msg Message ε) (sdkMsgs : List Msg)
    (h : ∀ msg ∈ sdkMsgs, ∃ m, X.SetMsg msg = .ok m) : ∃ ms, wrapAll X sdkMsgs = .ok ms := by
  induction sdkMsgs with
  | nil => exact ⟨[], rfl⟩
  | cons msg rest ih =>
    obtain ⟨m, hm⟩ := h msg (List.mem_cons_self _ _)
    obtain ⟨ms, hms⟩ := ih (fun x hx => h x (List.mem_cons_of_mem _ hx))
    exact ⟨m :: ms, by simp [wrapAll, hm, hms]⟩

/-- The error of wrapping a list is the error of its first message that fails. -/
theorem wrapAll_first_error (X : Ext Msg Message ε) (pre : List Msg) (msg : Msg)
    (post : List Msg) (err : ε) (hpre : ∀ x ∈ pre, ∃ m, X.SetMsg x = .ok m)
    (hfail : X.SetMsg msg = .error err) : wrapAll X (pre ++ msg :: post) = .error err := by
  induction pre with
  | nil => simp [wrapAll, hfail]
  | cons x pre ih =>
    obtain ⟨m, hm⟩ := hpre x (List.mem_cons_self _ _)
    have := ih (fun y hy => hpre y (List.mem_cons_of_mem _ hy))
    simp [wrapAll, hm, this]

/-- A list with a message that fails to wrap splits at its first such message. -/
theorem first_failure_split (X : Ext Msg Message ε) (sdkMsgs : List Msg)
    (h : ∃ msg ∈ sdkMsgs, ∃ err, X.SetMsg msg = .error err) :
    ∃ pre msg post err, sdkMsgs = pre ++ msg :: post
      ∧ (∀ x ∈ pre, ∃ m, X.SetMsg x = .ok m) ∧ X.SetMsg msg = .error err := by
  induction sdkMsgs with
  | nil => simp at h
  | cons x rest ih =>
    cases hx : X.SetMsg x with
    | error err => exact ⟨[], x, rest, err, rfl, by simp, hx⟩
    | ok m =>
      obtain ⟨msg, hmem, err, herr⟩ := h
      have hne : msg ≠ x := by
        intro heq
        rw [heq, hx] at herr
        cases herr
      have hmem1 : msg ∈ rest := by
        rcases List.mem_cons.mp hmem with h1 | h1
        · exact absurd h1 hne
        · exact h1
      obtain ⟨pre, msg1, post, err1, hsplit, hpre, hfail⟩ := ih ⟨msg, hmem1, err, herr⟩
      refine ⟨x :: pre, msg1, post, err1, by simp [hsplit], ?_, hfail⟩
      intro y hy
      rcases List.mem_cons.mp hy with h1 | h1
      · exact ⟨m, by rw [h1]; exact hx⟩
      · exact hpre y h1

end Accessors

/-! ## Signer derivation -/

section Signers

variable {Msg Message ε : Type}

theorem keepFirst_append (str : AccAddress → String) (l1 : List AccAddress) :
    ∀ (earlier l2 : List AccAddress),
      keepFirst str earlier (l1 ++ l2)
        = keepFirst str earlier l1 ++ keepFirst str (earlier ++ l1) l2 := by
  induction l1 with
  | nil => intro earlier l2; simp [keepFirst]
  | cons a l1 ih =>
    intro earlier l2
    have := ih (earlier ++ [a]) l2
    by_cases h : earlier.any (fun x => decide (str x = str a)) = true
    · simp only [List.cons_append, keepFirst, h, if_true]
      simpa using this
    · simp only [List.cons_append, keepFirst, h, if_false]
      simpa using this

/-- The walk agrees with the positional specification. -/
theorem keepFirst_eq_filter (str : AccAddress → String) (l : List AccAddress) :
    ∀ (earlier : List AccAddress) (n : Nat),
      keepFirst str earlier l
        = ((l.enumFrom n).filter (fun p =>
            (earlier ++ l.take (p.1 - n)).all (fun a => decide (str a ≠ str p.2)))).map
            Prod.snd := by
  induction l with
  | nil => intro earlier n; simp [keepFirst]
  | cons x l ih =>
    intro earlier n
    have hrest : (l.enumFrom (n + 1)).filter (fun p =>
          (earlier ++ (x :: l).take (p.1 - n)).all (fun a => decide (str a ≠ str p.2)))
        = (l.enumFrom (n + 1)).filter (fun p =>
          ((earlier ++ [x]) ++ l.take (p.1 - (n + 1))).all
            (fun a => decide (str a ≠ str p.2))) := by
      apply List.filter_congr
      intro p hp
      have hle : n + 1 ≤ p.1 := List.le_fst_of_mem_enumFrom hp
      have hk : p.1 - n = (p.1 - (n + 1)) + 1 := by omega
      rw [hk, List.take_succ_cons]
      simp
    have hih := ih (earlier ++ [x]) (n + 1)
    by_cases h : earlier.any (fun a => decide (str a = str x)) = true
    · have hall : (earlier.all fun a => decide (str a ≠ str x)) = false := by
        simp only [List.any_eq_true, decide_eq_true_eq] at h
        obtain ⟨a, ha, hax⟩ := h
        simp only [List.all_eq_false, decide_eq_true_eq]
        exact ⟨a, ha, by simp [hax]⟩
      simp only [keepFirst, h, if_true, List.enumFrom_cons, List.filter_cons, Nat.sub_self,
        List.take_zero, List.append_nil, hall, hrest]
      simpa using hih
    · have hall : (earlier.all fun a => decide (str a ≠ str x)) = true := by
        simp only [List.any_eq_true, decide_eq_true_eq, not_exists, not_and] at h
        simp only [List.all_eq_true, decide_eq_true_eq]
        exact fun a ha => h a ha
      simp only [keepFirst, h, if_false, List.enumFrom_cons, List.filter_cons, Nat.sub_self,
        List.take_zero, List.append_nil, hall, hrest, if_true, List.map_cons]
      simpa using hih

theorem keepFirst_eq_dedup (str : AccAddress → String) (l : List AccAddress) :
    keepFirst str [] l = dedupFirstOccurrence str l := by
  have := keepFirst_eq_filter str l [] 0
  simpa [dedupFirstOccurrence, List.enum] using this

theorem SeenMap.impl_lawful : SeenMap.impl.Lawful :=
  { lookup_empty := fun _ => rfl, lookup_store := fun _ _ _ _ => rfl }

theorem storeLog_lawful : storeLog.Lawful := by
  refine { lookup_empty := fun _ => rfl, lookup_store := ?_ }
  intro m k v key
  by_cases h : key = k
  · simp [storeLog, List.lookup, h]
  · have hb : (key == k) = false := by simpa using h
    simp [storeLog, List.lookup, h, hb]

/-- The inner loop of `GetSigners` appends the first occurrences of what it walks
over and records their string forms, whatever lawful map holds `seen`. -/
theorem getSignersInner_spec {σ : Type} (M : GoMap σ) (hM : M.Lawful) (X : Ext Msg Message ε)
    (l : List AccAddress) :
    ∀ (earlier signers : List AccAddress) (seen : σ),
      (∀ k, M.lookup seen k = true ↔ ∃ a ∈ earlier, X.String a = k) →
      (getSignersInner M X l (signers, seen)).1 = signers ++ keepFirst X.String earlier l
      ∧ (∀ k, M.lookup (getSignersInner M X l (signers, seen)).2 k = true
          ↔ ∃ a ∈ earlier ++ l, X.String a = k) := by
  induction l with
  | nil => intro earlier signers seen h; simpa [getSignersInner, keepFirst] using h
  | cons addr rest ih =>
    intro earlier signers seen h
    by_cases hs : M.lookup seen (X.String addr) = true
    · have hany : earlier.any (fun a => decide (X.String a = X.String addr)) = true := by
        simpa using (h _).mp hs
      have hinv : ∀ k, M.lookup seen k = true ↔ ∃ a ∈ earlier ++ [addr], X.String a = k := by
        intro k
        constructor
        · intro hk
          obtain ⟨a, ha, hak⟩ := (h k).mp hk
          exact ⟨a, by simp [ha], hak⟩
        · rintro ⟨a, ha, hak⟩
          rcases List.mem_append.mp ha with h1 | h1
          · exact (h k).mpr ⟨a, h1, hak⟩
          · have : a = addr := by simpa using h1
            rw [← hak, this]
            exact hs
      have := ih (earlier ++ [addr]) signers seen hinv
      simp only [getSignersInner, hs, Bool.not_true, keepFirst, hany, if_true]
      simpa using this
    · have hsf : M.lookup seen (X.String addr) = false := by simpa using hs
      have hany : ¬ earlier.any (fun a => decide (X.String a = X.String addr)) = true := by
        intro hc
        exact hs ((h _).mpr (by simpa using hc))
      have hinv : ∀ k, M.lookup (M.store seen (X.String addr) true) k = true
          ↔ ∃ a ∈ earlier ++ [addr], X.String a = k := by
        intro k
        rw [hM.lookup_store]
        by_cases hk : k = X.String addr
        · simp only [hk, if_true, true_iff]
          exact ⟨addr, by simp, rfl⟩
        · have hk2 : ¬ X.String addr = k := fun hc => hk hc.symm
          simp only [hk, if_false, h k]
          constructor
          · rintro ⟨a, ha, hak⟩
            exact ⟨a, by simp [ha], hak⟩
          · rintro ⟨a, ha, hak⟩
            rcases List.mem_append.mp ha with h1 | h1
            · exact ⟨a, h1, hak⟩
            · have : a = addr := by simpa using h1
              rw [this] at hak
              exact absurd hak hk2
      have := ih (earlier ++ [addr]) (signers ++ [addr]) (M.store seen (X.String addr) true) hinv
      simp only [getSignersInner, hsf, Bool.not_false, keepFirst, hany, if_true, if_false]
      simpa using this

/-- Over messages that are not nil, the outer loop of `GetSigners` completes and
appends the first occurrences among their signer lists. -/
theorem getSignersOuter_spec {σ : Type} (M : GoMap σ) (hM : M.Lawful) (X : Ext Msg Message ε)
    (msgs : List Msg) :
    ∀ (earlier signers : List AccAddress) (seen : σ),
      (∀ k, M.lookup seen k = true ↔ ∃ a ∈ earlier, X.String a = k) →
      (∀ msg ∈ msgs, X.GetSigners msg ≠ none) →
      ∃ seen1, getSignersOuter M X msgs (signers, seen)
        = .ok (signers ++ keepFirst X.String earlier
            (msgs.map (fun msg => (X.GetSigners msg).getD [])).flatten, seen1) := by
  induction msgs with
  | nil => intro earlier signers seen _ _; exact ⟨seen, by simp [getSignersOuter, keepFirst]⟩
  | cons msg rest ih =>
    intro earlier signers seen h hall
    cases hg : X.GetSigners msg with
    | none => exact absurd hg (hall msg (List.mem_cons_self _ _))
    | some addrs =>
      obtain ⟨h1, h2⟩ := getSignersInner_spec M hM X addrs earlier signers seen h
      obtain ⟨seen1, hrest⟩ := ih (earlier ++ addrs)
        (getSignersInner M X addrs (signers, seen)).1
        (getSignersInner M X addrs (signers, seen)).2 h2
        (fun m hm => hall m (List.mem_cons_of_mem _ hm))
      refine ⟨seen1, ?_⟩
      simp only [getSignersOuter, hg, List.map_cons, List.flatten_cons, Option.getD_some,
        keepFirst_append]
      rw [hrest, h1, List.append_assoc]

/-- The outer loop of `GetSigners` faults when it meets the nil message. -/
theorem getSignersOuter_fault {σ : Type} (M : GoMap σ) (X : Ext Msg Message ε)
    (msgs : List Msg) :
    ∀ (st : List AccAddress × σ), (∃ msg ∈ msgs, X.GetSigners msg = none) →
      getSignersOuter M X msgs st = .error .nilPointerDereference := by
  induction msgs with
  | nil => intro st h; simp at h
  | cons msg rest ih =>
    intro st h
    cases hg : X.GetSigners msg with
    | none => simp [getSignersOuter, hg]
    | some addrs =>
      obtain ⟨m, hm, hnone⟩ := h
      have hmr : m ∈ rest := by
        rcases List.mem_cons.mp hm with h1 | h1
        · rw [h1, hg] at hnone
          cases hnone
        · exact h1
      simp only [getSignersOuter, hg]
      exact ih _ ⟨m, hmr, hnone⟩

/-- When every container holds a message, `GetSigners` completes with the first
occurrences of the signer mentions, whatever lawful map holds `seen`. -/
theorem GetSignersWith_eq [Inhabited Msg] {σ : Type} (M : GoMap σ) (hM : M.Lawful)
    (X : Ext Msg Message ε) (tx : Transaction Message) (h : holdMessages X tx.Msgs) :
    tx.GetSignersWith M X = .ok (firstOccurrences X tx.Msgs) := by
  obtain ⟨seen1, hrun⟩ := getSignersOuter_spec M hM X (tx.Msgs.map X.GetMsg) [] [] M.empty
    (by intro k; simp [hM.lookup_empty])
    (by
      intro msg hmsg
      obtain ⟨m, hm, hmm⟩ := List.mem_map.mp hmsg
      rw [← hmm]
      exact h m hm)
  simp only [Transaction.GetSignersWith, GetMsgs_eq, hrun, firstOccurrences, signerMentions,
    ← keepFirst_eq_dedup]
  simp [Function.comp_def]

/-- When some container holds no message, `GetSigners` faults. -/
theorem GetSignersWith_fault [Inhabited Msg] {σ : Type} (M : GoMap σ)
    (X : Ext Msg Message ε) (tx : Transaction Message) (h : ¬ holdMessages X tx.Msgs) :
    tx.GetSignersWith M X = .error .nilPointerDereference := by
  have hex : ∃ msg ∈ tx.Msgs.map X.GetMsg, X.GetSigners msg = none := by
    simp only [holdMessages, not_forall, not_not] at h
    obtain ⟨m, hm, hnone⟩ := h
    exact ⟨X.GetMsg m, List.mem_map.mpr ⟨m, hm, rfl⟩, hnone⟩
  simp only [Transaction.GetSignersWith, GetMsgs_eq,
    getSignersOuter_fault M X (tx.Msgs.map X.GetMsg) ([], M.empty) hex]

/-- When every container holds a message, method `GetSigners` completes with the
first occurrences of the signer mentions. -/
theorem GetSigners_eq [Inhabited Msg] (X : Ext Msg Message ε) (tx : Transaction Message)
    (h : holdMessages X tx.Msgs) : tx.GetSigners X = .ok (firstOccurrences X tx.Msgs) :=
  GetSignersWith_eq SeenMap.impl SeenMap.impl_lawful X tx h

/-- When some container holds no message, method `GetSigners` faults. -/
theorem GetSigners_fault [Inhabited Msg] (X : Ext Msg Message ε) (tx : Transaction Message)
    (h : ¬ holdMessages X tx.Msgs) : tx.GetSigners X = .error .nilPointerDereference :=
  GetSignersWith_fault SeenMap.impl X tx h

/-- Method `GetSigners` completes exactly when every container holds a message. -/
theorem GetSigners_ok_iff [Inhabited Msg] (X : Ext Msg Message ε) (tx : Transaction Message)
    (signers : List AccAddress) :
    tx.GetSigners X = .ok signers
      ↔ holdMessages X tx.Msgs ∧ signers = firstOccurrences X tx.Msgs := by
  by_cases h : holdMessages X tx.Msgs
  · rw [GetSigners_eq X tx h]
    constructor
    · intro heq
      simp only [Except.ok.injEq] at heq
      exact ⟨h, heq.symm⟩
    · rintro ⟨_, heq⟩
      rw [heq]
  · rw [GetSigners_fault X tx h]
    constructor
    · intro heq
      cases heq
    · rintro ⟨hc, _⟩
      exact absurd hc h

end Signers

/-! ## Properties of the first-occurrence walk -/

section KeepFirst

/-- What the walk keeps comes from the list, has a string form that no earlier
address carries, and no two kept addresses share a string form. -/
theorem keepFirst_sound (str : AccAddress → String) (l : List AccAddress) :
    ∀ (earlier : List AccAddress),
      ((keepFirst str earlier l).map str).Nodup
      ∧ ∀ a ∈ keepFirst str earlier l, a ∈ l ∧ ∀ e ∈ earlier, str e ≠ str a := by
  induction l with
  | nil => intro earlier; simp [keepFirst]
  | cons x l ih =>
    intro earlier
    obtain ⟨hnd, hmem⟩ := ih (earlier ++ [x])
    by_cases h : earlier.any (fun a => decide (str a = str x)) = true
    · simp only [keepFirst, h, if_true]
      refine ⟨hnd, ?_⟩
      intro a ha
      obtain ⟨h1, h2⟩ := hmem a ha
      exact ⟨List.mem_cons_of_mem _ h1, fun e he => h2 e (by simp [he])⟩
    · have hk : keepFirst str earlier (x :: l) = x :: keepFirst str (earlier ++ [x]) l := by
        simp [keepFirst, h]
      rw [hk, List.map_cons, List.nodup_cons]
      refine ⟨⟨?_, hnd⟩, ?_⟩
      · intro hc
        obtain ⟨a, ha, hax⟩ := List.mem_map.mp hc
        exact (hmem a ha).2 x (by simp) hax.symm
      · intro a ha
        rcases List.mem_cons.mp ha with h1 | h1
        · subst h1
          refine ⟨List.mem_cons_self _ _, ?_⟩
          intro e he hc
          exact h (by simp only [List.any_eq_true, decide_eq_true_eq]; exact ⟨e, he, hc⟩)
        · obtain ⟨h2, h3⟩ := hmem a h1
          exact ⟨List.mem_cons_of_mem _ h2, fun e he => h3 e (by simp [he])⟩

/-- Every string form of the list that no earlier address carries is carried by
a kept address. -/
theorem keepFirst_complete (str : AccAddress → String) (l : List AccAddress) :
    ∀ (earlier : List AccAddress) (a : AccAddress), a ∈ l → (∀ e ∈ earlier, str e ≠ str a) →
      ∃ b ∈ keepFirst str earlier l, str b = str a := by
  induction l with
  | nil => intro earlier a ha; simp at ha
  | cons x l ih =>
    intro earlier a ha hfresh
    by_cases hxa : str x = str a
    · by_cases h : earlier.any (fun e => decide (str e = str x)) = true
      · simp only [List.any_eq_true, decide_eq_true_eq] at h
        obtain ⟨e, he, hex⟩ := h
        exact absurd (hex.trans hxa) (hfresh e he)
      · exact ⟨x, by simp [keepFirst, h], hxa⟩
    · have hal : a ∈ l := by
        rcases List.mem_cons.mp ha with h1 | h1
        · rw [h1] at hxa
          exact absurd rfl hxa
        · exact h1
      have hfresh1 : ∀ e ∈ earlier ++ [x], str e ≠ str a := by
        intro e he
        rcases List.mem_append.mp he with h1 | h1
        · exact hfresh e h1
        · have : e = x := by simpa using h1
          rw [this]
          exact hxa
      obtain ⟨b, hb, hba⟩ := ih (earlier ++ [x]) a hal hfresh1
      by_cases h : earlier.any (fun e => decide (str e = str x)) = true
      · exact ⟨b, by simpa [keepFirst, h] using hb, hba⟩
      · exact ⟨b, by simp [keepFirst, h, hb], hba⟩

/-- With an injective string form, the walk keeps exactly the addresses of the list. -/
theorem mem_keepFirst_iff (str : AccAddress → String) (hinj : Function.Injective str)
    (l : List AccAddress) (a : AccAddress) : a ∈ keepFirst str [] l ↔ a ∈ l := by
  constructor
  · intro h
    exact ((keepFirst_sound str l []).2 a h).1
  · intro h
    obtain ⟨b, hb, hba⟩ := keepFirst_complete str l [] a h (by simp)
    rw [← hinj hba]
    exact hb

/-- With an injective string form, the walk keeps as many addresses as the list
has distinct ones. -/
theorem keepFirst_length (str : AccAddress → String) (hinj : Function.Injective str)
    (l : List AccAddress) : (keepFirst str [] l).length = l.toFinset.card := by
  have hnd : (keepFirst str [] l).Nodup := List.Nodup.of_map _ (keepFirst_sound str l []).1
  rw [← List.toFinset_card_of_nodup hnd]
  congr 1
  ext a
  simp [mem_keepFirst_iff str hinj]

/-- The walk keeps as many addresses as the list has distinct string forms. -/
theorem keepFirst_length_forms (str : AccAddress → String) (l : List AccAddress) :
    (keepFirst str [] l).length = (l.map str).toFinset.card := by
  have hs := keepFirst_sound str l []
  rw [← List.length_map (keepFirst str [] l) str, ← List.toFinset_card_of_nodup hs.1]
  congr 1
  ext k
  simp only [List.mem_toFinset, List.mem_map]
  constructor
  · rintro ⟨a, ha, hk⟩
    exact ⟨a, (hs.2 a ha).1, hk⟩
  · rintro ⟨a, ha, hk⟩
    obtain ⟨b, hb, hba⟩ := keepFirst_complete str l [] a ha (by simp)
    exact ⟨b, hb, hba.trans hk⟩

end KeepFirst

/-! ## Further lemmas on signer derivation -/

section Mentions

variable {Msg Message ε : Type}

theorem mem_signerMentions (X : Ext Msg Message ε) (msgs : List Message) (a : AccAddress) :
    a ∈ signerMentions X msgs
      ↔ ∃ m ∈ msgs, ∃ l, X.GetSigners (X.GetMsg m) = some l ∧ a ∈ l := by
  simp only [signerMentions, List.mem_flatten, List.mem_map]
  constructor
  · rintro ⟨l, ⟨m, hm, hl⟩, ha⟩
    cases hg : X.GetSigners (X.GetMsg m) with
    | none =>
      rw [hg] at hl
      rw [← hl] at ha
      simp at ha
    | some l1 =>
      rw [hg] at hl
      exact ⟨m, hm, l1, hg, by rw [← hl] at ha; simpa using ha⟩
  · rintro ⟨m, hm, l, hl, ha⟩
    exact ⟨l, ⟨m, hm, by rw [hl]; rfl⟩, ha⟩

theorem signerMentions_append (X : Ext Msg Message ε) (ms1 ms2 : List Message) :
    signerMentions X (ms1 ++ ms2) = signerMentions X ms1 ++ signerMentions X ms2 := by
  simp [signerMentions]

/-- The walk keeps nothing of a list whose string forms all occur earlier. -/
theorem keepFirst_covered (str : AccAddress → String) (l : List AccAddress) :
    ∀ (earlier : List AccAddress), (∀ x ∈ l, ∃ e ∈ earlier, str e = str x) →
      keepFirst str earlier l = [] := by
  induction l with
  | nil => intro earlier _; rfl
  | cons x l ih =>
    intro earlier h
    have hany : earlier.any (fun a => decide (str a = str x)) = true := by
      simpa using h x (List.mem_cons_self _ _)
    have hrest : ∀ y ∈ l, ∃ e ∈ earlier ++ [x], str e = str y := by
      intro y hy
      obtain ⟨e, he, hey⟩ := h y (List.mem_cons_of_mem _ hy)
      exact ⟨e, by simp [he], hey⟩
    simp only [keepFirst, hany, if_true]
    exact ih (earlier ++ [x]) hrest

/-- A non-empty list of mentions of one address has that address as its only
first occurrence. -/
theorem keepFirst_single (str : AccAddress → String) (l : List AccAddress) (a : AccAddress)
    (hne : l ≠ []) (hall : ∀ x ∈ l, x = a) : keepFirst str [] l = [a] := by
  cases l with
  | nil => exact absurd rfl hne
  | cons x l =>
    have hx : x = a := hall x (List.mem_cons_self _ _)
    subst hx
    have hrest : ∀ y ∈ l, ∃ e ∈ [] ++ [x], str e = str y := by
      intro y hy
      exact ⟨x, by simp, by rw [hall y (List.mem_cons_of_mem _ hy)]⟩
    have hcov := keepFirst_covered str l ([] ++ [x]) hrest
    simp only [List.nil_append] at hcov
    simp [keepFirst, hcov]

end Mentions

/-! ## Validation -/

section Validation

variable {Msg Message ε : Type}

theorem isAnyNegative_iff (coins : Coins) :
    coins.IsAnyNegative = true ↔ ∃ coin ∈ coins, coin.Amount < 0 := by
  simp [Coins.IsAnyNegative]

/-- Method `ValidateBasic` is the chain of its four checks; the first three never
fault, the fourth runs `GetSigners`. -/
theorem ValidateBasic_eq (X : Ext Msg Message ε) [Inhabited Msg] (tx : Transaction Message) :
    tx.ValidateBasic X =
      if tx.Fee.Gas > X.MaxGasWanted then
        .ok (some (Wrapf .ErrInvalidRequest "invalid gas supplied; %d > %d"
          [.uint64 tx.Fee.Gas, .uint64 X.MaxGasWanted]))
      else if tx.Fee.Amount.IsAnyNegative then
        .ok (some (Wrapf .ErrInsufficientFee "invalid fee provided: %s" [.coins tx.Fee.Amount]))
      else if tx.Signatures.length = 0 then
        .ok (some RootError.ErrNoSignatures.bare)
      else
        match tx.GetSigners X with
        | .error p => .error p
        | .ok signers =>
          if tx.Signatures.length ≠ signers.length then
            .ok (some (Wrapf .ErrUnauthorized "wrong number of signers; expected %d, got %d"
              [.addrs signers, .int tx.Signatures.length]))
          else .ok none := by
  simp only [Transaction.ValidateBasic, GetSignatures_eq, List.length_map]
  split_ifs
  · rfl
  · rfl
  · rfl
  · cases hg : tx.GetSigners X with
    | error p => rfl
    | ok signers => rfl

/-- Past the first three checks, with every container holding a message,
`ValidateBasic` compares the signature count with the count of first
occurrences among the signer mentions. -/
theorem ValidateBasic_fourth [Inhabited Msg] (X : Ext Msg Message ε) (tx : Transaction Message)
    (h1 : ¬ tx.Fee.Gas > X.MaxGasWanted) (h2 : ¬ tx.Fee.Amount.IsAnyNegative = true)
    (h3 : ¬ tx.Signatures.length = 0) (h : holdMessages X tx.Msgs) :
    tx.ValidateBasic X =
      if tx.Signatures.length ≠ (firstOccurrences X tx.Msgs).length then
        .ok (some (Wrapf .ErrUnauthorized "wrong number of signers; expected %d, got %d"
          [.addrs (firstOccurrences X tx.Msgs), .int tx.Signatures.length]))
      else .ok none := by
  rw [ValidateBasic_eq, if_neg h1, if_neg h2, if_neg h3, GetSigners_eq X tx h]

/-- Past the first three checks, with some container holding no message,
`ValidateBasic` faults. -/
theorem ValidateBasic_fault [Inhabited Msg] (X : Ext Msg Message ε) (tx : Transaction Message)
    (h1 : ¬ tx.Fee.Gas > X.MaxGasWanted) (h2 : ¬ tx.Fee.Amount.IsAnyNegative = true)
    (h3 : ¬ tx.Signatures.length = 0) (h : ¬ holdMessages X tx.Msgs) :
    tx.ValidateBasic X = .error .nilPointerDereference := by
  rw [ValidateBasic_eq, if_neg h1, if_neg h2, if_neg h3, GetSigners_fault X tx h]

end Validation

/-! ## The example collaborators -/

section Examples

theorem toNat_ofNat_byte (n : Nat) (h : n < 256) : (Char.ofNat n).toNat = n := by
  have hv : n.isValidChar := Or.inl (by omega)
  unfold Char.ofNat
  rw [dif_pos hv]
  simp [Char.ofNatAux, Char.toNat, UInt32.toNat]

theorem exString_injective : Function.Injective exString := by
  have hchar : Function.Injective (fun b : Byte => Char.ofNat b.val) := by
    intro x y hxy
    have h := congrArg Char.toNat hxy
    simp only [toNat_ofNat_byte _ x.isLt, toNat_ofNat_byte _ y.isLt] at h
    exact Fin.ext h
  intro a b h
  have hdata := congrArg String.data h
  exact (List.map_injective_iff.mpr hchar) hdata

theorem exExt_round_trip (msg : ExMsg) (m : ExMessage) (h : exExt.SetMsg msg = .ok m) :
    exExt.GetMsg m = msg := by
  cases msg with
  | nil =>
    simp only [exExt, Except.ok.injEq] at h
    subst h
    rfl
  | unregistered => simp [exExt] at h
  | registered signers =>
    simp only [exExt, Except.ok.injEq] at h
    subst h
    rfl

theorem exTx_holdMessages : holdMessages exExt exTx.Msgs := by
  intro m hm
  simp only [exTx, List.mem_cons, List.mem_singleton, List.not_mem_nil, or_false] at hm
  rcases hm with h | h <;> subst h <;> simp [exExt]

theorem exTxEmptyContainer_not_holdMessages :
    ¬ holdMessages exExt exTxEmptyContainer.Msgs := by
  intro h
  exact h { held := none } (by simp [exTxEmptyContainer]) rfl

theorem exTx_firstOccurrences : firstOccurrences exExt exTx.Msgs = [addrA, addrB, addrC] := by
  have sAB : ¬ exString addrA = exString addrB := fun h => absurd (exString_injective h) (by decide)
  have sAC : ¬ exString addrA = exString addrC := fun h => absurd (exString_injective h) (by decide)
  have sBC : ¬ exString addrB = exString addrC := fun h => absurd (exString_injective h) (by decide)
  rw [firstOccurrences, ← keepFirst_eq_dedup]
  simp [signerMentions, exTx, exExt, keepFirst, sAB, sAC, sBC]

end Examples

/-! ## The claims -/

section Claims

variable {Msg Message ε : Type}

/-- C1: `ValidateBasic` reports the first violated check in the fixed order: gas
above `MaxGasWanted` gives InvalidRequest whatever the rest of the transaction
is; otherwise a negative fee component gives InsufficientFee; otherwise an empty
signature list gives NoSignatures; otherwise a signature count that differs
from the length of what `GetSigners()` returns gives Unauthorized.  The fourth
check runs `GetSigners`, which returns when every container holds a message
and faults otherwise. -/
theorem ValidateBasic_reports_first_violation [Inhabited Msg] (X : Ext Msg Message ε)
    (tx : Transaction Message) :
    (tx.Fee.Gas > X.MaxGasWanted →
      ∃ e, tx.ValidateBasic X = .ok (some e) ∧ e.root = .ErrInvalidRequest)
    ∧ (¬ tx.Fee.Gas > X.MaxGasWanted → (∃ coin ∈ tx.Fee.Amount, coin.Amount < 0) →
      ∃ e, tx.ValidateBasic X = .ok (some e) ∧ e.root = .ErrInsufficientFee)
    ∧ (¬ tx.Fee.Gas > X.MaxGasWanted → ¬ (∃ coin ∈ tx.Fee.Amount, coin.Amount < 0) →
      tx.Signatures = [] →
      ∃ e, tx.ValidateBasic X = .ok (some e) ∧ e.root = .ErrNoSignatures)
    ∧ (¬ tx.Fee.Gas > X.MaxGasWanted → ¬ (∃ coin ∈ tx.Fee.Amount, coin.Amount < 0) →
      tx.Signatures ≠ [] →
      (∀ signers, tx.GetSigners X = .ok signers → tx.Signatures.length ≠ signers.length →
          ∃ e, tx.ValidateBasic X = .ok (some e) ∧ e.root = .ErrUnauthorized)
      ∧ (holdMessages X tx.Msgs → ∃ signers, tx.GetSigners X = .ok signers)
      ∧ (¬ holdMessages X tx.Msgs →
          tx.GetSigners X = .error .nilPointerDereference
          ∧ tx.ValidateBasic X = .error .nilPointerDereference)) := by
  refine ⟨?_, ?_, ?_, ?_⟩
  · intro hgas
    exact ⟨_, by rw [ValidateBasic_eq, if_pos hgas], rfl⟩
  · intro hgas hneg
    have hn : tx.Fee.Amount.IsAnyNegative = true := (isAnyNegative_iff _).mpr hneg
    exact ⟨_, by rw [ValidateBasic_eq, if_neg hgas, if_pos hn], rfl⟩
  · intro hgas hneg hsig
    have hn : ¬ tx.Fee.Amount.IsAnyNegative = true := fun h => hneg ((isAnyNegative_iff _).mp h)
    have hz : tx.Signatures.length = 0 := by simp [hsig]
    exact ⟨_, by rw [ValidateBasic_eq, if_neg hgas, if_neg hn, if_pos hz], rfl⟩
  · intro hgas hneg hsig
    have hn : ¬ tx.Fee.Amount.IsAnyNegative = true := fun h => hneg ((isAnyNegative_iff _).mp h)
    have hz : ¬ tx.Signatures.length = 0 := fun h => hsig (List.length_eq_zero.mp h)
    refine ⟨?_, ?_, ?_⟩
    · intro signers hs hlen
      have hv : tx.ValidateBasic X = .ok (some (Wrapf .ErrUnauthorized
          "wrong number of signers; expected %d, got %d"
          [.addrs signers, .int tx.Signatures.length])) := by
        rw [ValidateBasic_eq, if_neg hgas, if_neg hn, if_neg hz, hs]
        simp only
        rw [if_pos hlen]
      exact ⟨_, hv, rfl⟩
    · intro hhold
      exact ⟨_, GetSigners_eq X tx hhold⟩
    · intro hhold
      exact ⟨GetSigners_fault X tx hhold, ValidateBasic_fault X tx hgas hn hz hhold⟩

/-- Witness for C1: gas 20000000 against the bound 10000000 with the signatures
missing gives InvalidRequest; the example transaction with three signers and two
signatures gives Unauthorized; a container that holds no message makes the
fourth check fault. -/
theorem ValidateBasic_reports_first_violation_witness :
    (exTxGas.Fee.Gas > exExtSmall.MaxGasWanted ∧ exTxGas.Signatures = []
      ∧ ∃ e, exTxGas.ValidateBasic exExtSmall = .ok (some e) ∧ e.root = .ErrInvalidRequest)
    ∧ (∃ e, exTx.ValidateBasic exExt = .ok (some e) ∧ e.root = .ErrUnauthorized)
    ∧ exTxEmptyContainer.ValidateBasic exExt = .error .nilPointerDereference :=
  ⟨⟨by decide, rfl, (ValidateBasic_reports_first_violation exExtSmall exTxGas).1 (by decide)⟩,
    ((ValidateBasic_reports_first_violation exExt exTx).2.2.2 (by decide) (by decide)
      (by decide)).1 [addrA, addrB, addrC]
      (by rw [GetSigners_eq exExt exTx exTx_holdMessages, exTx_firstOccurrences]) (by decide),
    (((ValidateBasic_reports_first_violation exExt exTxEmptyContainer).2.2.2 (by decide)
      (by decide) (by decide)).2.2 exTxEmptyContainer_not_holdMessages).2⟩

/-- C2: when every container holds a message, `GetSigners` is the
first-occurrence deduplication of the concatenation, in message order, of the
messages' signer lists (and it faults when some container holds none); for two
messages with signers [A, B] and [B, C], with A, B, C distinct, it is
[A, B, C]. -/
theorem GetSigners_first_occurrence_dedup [Inhabited Msg] (X : Ext Msg Message ε)
    (tx : Transaction Message) :
    (holdMessages X tx.Msgs → tx.GetSigners X = .ok (firstOccurrences X tx.Msgs))
    ∧ (¬ holdMessages X tx.Msgs → tx.GetSigners X = .error .nilPointerDereference)
    ∧ (Function.Injective X.String →
      ∀ (m1 m2 : Message) (A B C : AccAddress), tx.Msgs = [m1, m2] →
        X.GetSigners (X.GetMsg m1) = some [A, B] → X.GetSigners (X.GetMsg m2) = some [B, C] →
        A ≠ B → A ≠ C → B ≠ C → tx.GetSigners X = .ok [A, B, C]) := by
  refine ⟨GetSigners_eq X tx, GetSigners_fault X tx, ?_⟩
  intro hinj m1 m2 A B C hm h1 h2 hAB hAC hBC
  have sAB : ¬ X.String A = X.String B := fun h => hAB (hinj h)
  have sAC : ¬ X.String A = X.String C := fun h => hAC (hinj h)
  have sBC : ¬ X.String B = X.String C := fun h => hBC (hinj h)
  have hhold : holdMessages X tx.Msgs := by
    intro m hmem
    rw [hm] at hmem
    simp only [List.mem_cons, List.mem_singleton, List.not_mem_nil, or_false] at hmem
    rcases hmem with h | h <;> subst h <;> simp [h1, h2]
  rw [GetSigners_eq X tx hhold, firstOccurrences, ← keepFirst_eq_dedup, signerMentions, hm]
  simp [h1, h2, keepFirst, sAB, sAC, sBC]

/-- Witness for C2: the example transaction with messages signed by [A, B] and
[B, C] has the signers [A, B, C], which is the first-occurrence deduplication
of its signer mentions. -/
theorem GetSigners_first_occurrence_dedup_witness :
    (holdMessages exExt exTx.Msgs ∧ Function.Injective exExt.String)
    ∧ exTx.GetSigners exExt = .ok (firstOccurrences exExt exTx.Msgs)
    ∧ exTx.GetSigners exExt = .ok [addrA, addrB, addrC] :=
  ⟨⟨exTx_holdMessages, exString_injective⟩,
    (GetSigners_first_occurrence_dedup exExt exTx).1 exTx_holdMessages,
    (GetSigners_first_occurrence_dedup exExt exTx).2.2 exString_injective
      { held := some [addrA, addrB] } { held := some [addrB, addrC] } addrA addrB addrC
      rfl rfl rfl (by decide) (by decide) (by decide)⟩

/-- C3 (the code departs from it): on a transaction that holds two signatures,
`SetSignatures` with one signature leaves a signature list of length two, whose
second entry is a zero-valued signature. -/
theorem SetSignatures_keeps_old_length :
    ∃ tx, exTx.SetSignatures [exSig] = .ok tx
      ∧ tx.GetSignatures = .ok [exSig, { GetPubKey := [], GetSignature := [] }] :=
  ⟨_, rfl, rfl⟩

/-- C4 (the code departs from it): on the transaction freshly returned by
`NewTransaction`, `SetSignatures` with one signature faults with an index out
of range. -/
theorem SetSignatures_faults_on_new_transaction :
    ∃ tx, NewTransaction exExt exFee "memo" [] = .ok (.ok tx)
      ∧ tx.Signatures = []
      ∧ tx.SetSignatures [exSig] = .error (.indexOutOfRange 0 0) :=
  ⟨_, rfl, rfl, rfl⟩

/-- C5: `SetMsgs` is atomic: when some message fails to wrap, the call returns
the error of the first message that fails, and the transaction (messages, fee,
memo and signatures) is what it was before the call, also when earlier messages
wrapped. -/
theorem SetMsgs_atomic [Inhabited Message] (X : Ext Msg Message ε) (tx : Transaction Message)
    (sdkMsgs : List Msg) (h : ∃ msg ∈ sdkMsgs, ∃ err, X.SetMsg msg = .error err) :
    ∃ pre msg post err, sdkMsgs = pre ++ msg :: post
      ∧ (∀ x ∈ pre, ∃ m, X.SetMsg x = .ok m) ∧ X.SetMsg msg = .error err
      ∧ tx.SetMsgs X sdkMsgs = .ok (tx, some err) := by
  obtain ⟨pre, msg, post, err, hsplit, hpre, hfail⟩ := first_failure_split X sdkMsgs h
  refine ⟨pre, msg, post, err, hsplit, hpre, hfail, ?_⟩
  rw [SetMsgs_eq, hsplit, wrapAll_first_error X pre msg post err hpre hfail]

/-- Witness for C5: a registered message followed by an unregistered one. -/
theorem SetMsgs_atomic_witness :
    (∃ msg ∈ [ExMsg.registered [addrA], ExMsg.unregistered],
        ∃ err, exExt.SetMsg msg = .error err)
    ∧ ∃ pre msg post err, [ExMsg.registered [addrA], ExMsg.unregistered] = pre ++ msg :: post
      ∧ (∀ x ∈ pre, ∃ m, exExt.SetMsg x = .ok m) ∧ exExt.SetMsg msg = .error err
      ∧ exTx.SetMsgs exExt [ExMsg.registered [addrA], ExMsg.unregistered]
          = .ok (exTx, some err) :=
  ⟨⟨ExMsg.unregistered, by simp, _, rfl⟩,
    SetMsgs_atomic exExt exTx [ExMsg.registered [addrA], ExMsg.unregistered]
      ⟨ExMsg.unregistered, by simp, _, rfl⟩⟩

/-- C6: signature independence: two transactions with equal messages, fee and
memo give the same `CanonicalSignBytes` result for every chain id, account
number and sequence, whatever their signatures; and a completed `SetSignatures`
does not change what `CanonicalSignBytes` returns. -/
theorem CanonicalSignBytes_signature_independent [Inhabited Msg] [Inhabited Message]
    (X : Ext Msg Message ε) (tx1 tx2 : Transaction Message) (cid : String) (num seq : Nat)
    (hmsgs : tx1.Msgs = tx2.Msgs) (hfee : tx1.Fee = tx2.Fee) (hmemo : tx1.Memo = tx2.Memo) :
    tx1.CanonicalSignBytes X cid num seq = tx2.CanonicalSignBytes X cid num seq
    ∧ ∀ (sdkSigs : List Signature) (tx : Transaction Message),
        tx1.SetSignatures sdkSigs = .ok tx →
        tx.CanonicalSignBytes X cid num seq = tx1.CanonicalSignBytes X cid num seq := by
  constructor
  · simp only [Transaction.CanonicalSignBytes, hmsgs, hfee, hmemo]
  · intro sdkSigs tx h
    simp only [Transaction.SetSignatures] at h
    split at h
    · cases h
    · simp only [Except.ok.injEq] at h
      subst h
      rfl

/-- Witness for C6: the example transaction with and without its signatures. -/
theorem CanonicalSignBytes_signature_independent_witness :
    exTx.Msgs = exTxUnsigned.Msgs ∧ exTx.Fee = exTxUnsigned.Fee
    ∧ exTx.Memo = exTxUnsigned.Memo ∧ exTx.Signatures ≠ exTxUnsigned.Signatures
    ∧ exTx.CanonicalSignBytes exExt "chain" 7 3
        = exTxUnsigned.CanonicalSignBytes exExt "chain" 7 3 :=
  ⟨rfl, rfl, rfl, by decide,
    (CanonicalSignBytes_signature_independent exExt exTx exTxUnsigned "chain" 7 3
      rfl rfl rfl).1⟩

/-- C7: `ValidateBasic` succeeds exactly when the gas is at most `MaxGasWanted`,
no fee component is negative, the signature list is not empty, and the number
of signatures is the number of signers `GetSigners` returns. -/
theorem ValidateBasic_ok_iff [Inhabited Msg] (X : Ext Msg Message ε)
    (tx : Transaction Message) :
    tx.ValidateBasic X = .ok none
      ↔ tx.Fee.Gas ≤ X.MaxGasWanted
        ∧ (∀ coin ∈ tx.Fee.Amount, 0 ≤ coin.Amount)
        ∧ tx.Signatures ≠ []
        ∧ ∃ signers, tx.GetSigners X = .ok signers ∧ tx.Signatures.length = signers.length := by
  have hneg : tx.Fee.Amount.IsAnyNegative = true ↔ ¬ ∀ coin ∈ tx.Fee.Amount, 0 ≤ coin.Amount := by
    rw [isAnyNegative_iff]
    constructor
    · rintro ⟨coin, hc, hlt⟩ hall
      exact absurd (hall coin hc) (not_le.mpr hlt)
    · intro hall
      by_contra hc
      exact hall (fun coin hmem => not_lt.mp (fun hlt => hc ⟨coin, hmem, hlt⟩))
  have hsig : tx.Signatures.length = 0 ↔ tx.Signatures = [] := List.length_eq_zero
  rw [ValidateBasic_eq]
  constructor
  · intro h
    by_cases h1 : tx.Fee.Gas > X.MaxGasWanted
    · rw [if_pos h1] at h
      cases h
    · by_cases h2 : tx.Fee.Amount.IsAnyNegative = true
      · rw [if_neg h1, if_pos h2] at h
        cases h
      · by_cases h3 : tx.Signatures.length = 0
        · rw [if_neg h1, if_neg h2, if_pos h3] at h
          cases h
        · rw [if_neg h1, if_neg h2, if_neg h3] at h
          cases hg : tx.GetSigners X with
          | error p =>
            rw [hg] at h
            cases h
          | ok signers =>
            rw [hg] at h
            simp only at h
            by_cases h4 : tx.Signatures.length ≠ signers.length
            · rw [if_pos h4] at h
              cases h
            · exact ⟨not_lt.mp h1, not_not.mp (fun hc => h2 (hneg.mpr hc)),
                fun hc => h3 (hsig.mpr hc), signers, rfl, not_not.mp h4⟩
  · rintro ⟨h1, h2, h3, signers, hs, h4⟩
    rw [if_neg (not_lt.mpr h1), if_neg (fun hc => (hneg.mp hc) h2),
      if_neg (fun hc => h3 (hsig.mp hc)), hs]
    simp only
    rw [if_neg (not_not.mpr h4)]

/-- C8: with every container holding a message, `GetSigners` holds no two
addresses with the same canonical string form and has as many entries as the
signer mentions have distinct string forms; with the canonical string form
injective, it holds an address exactly when some message names it as a signer,
and its length is the number of distinct signer addresses named across all
messages. -/
theorem GetSigners_distinct_and_complete [Inhabited Msg] (X : Ext Msg Message ε)
    (tx : Transaction Message) (hhold : holdMessages X tx.Msgs) :
    ∃ signers, tx.GetSigners X = .ok signers
      ∧ (signers.map X.String).Nodup
      ∧ signers.length = ((signerMentions X tx.Msgs).map X.String).toFinset.card
      ∧ (Function.Injective X.String →
        (∀ a, a ∈ signers
          ↔ ∃ m ∈ tx.Msgs, ∃ l, X.GetSigners (X.GetMsg m) = some l ∧ a ∈ l)
        ∧ signers.length = (signerMentions X tx.Msgs).toFinset.card) := by
  refine ⟨_, GetSigners_eq X tx hhold, ?_, ?_, ?_⟩
  · rw [firstOccurrences, ← keepFirst_eq_dedup]
    exact (keepFirst_sound X.String _ []).1
  · rw [firstOccurrences, ← keepFirst_eq_dedup]
    exact keepFirst_length_forms X.String _
  · intro hinj
    constructor
    · intro a
      rw [firstOccurrences, ← keepFirst_eq_dedup, mem_keepFirst_iff X.String hinj]
      exact mem_signerMentions X tx.Msgs a
    · rw [firstOccurrences, ← keepFirst_eq_dedup]
      exact keepFirst_length X.String hinj _

/-- Witness for C8: the example transaction, whose two messages mention four
signers, three of them distinct: its signers are each named by a message, and
there are three of them, not two and not four. -/
theorem GetSigners_distinct_and_complete_witness :
    (holdMessages exExt exTx.Msgs ∧ Function.Injective exExt.String)
    ∧ exTx.Msgs.length = 2 ∧ (signerMentions exExt exTx.Msgs).length = 4
    ∧ ∃ signers, exTx.GetSigners exExt = .ok signers
      ∧ (signers.map exExt.String).Nodup
      ∧ signers.length = ((signerMentions exExt exTx.Msgs).map exExt.String).toFinset.card
      ∧ (∀ a, a ∈ signers
          ↔ ∃ m ∈ exTx.Msgs, ∃ l, exExt.GetSigners (exExt.GetMsg m) = some l ∧ a ∈ l)
      ∧ signers.length = (signerMentions exExt exTx.Msgs).toFinset.card :=
  ⟨⟨exTx_holdMessages, exString_injective⟩, rfl, rfl,
    (GetSigners_distinct_and_complete exExt exTx exTx_holdMessages).elim
      (fun signers h => ⟨signers, h.1, h.2.1, h.2.2.1, (h.2.2.2 exString_injective).1,
        (h.2.2.2 exString_injective).2⟩)⟩

/-- C9: when every message wraps, `NewTransaction` returns a transaction with the
given fee and memo, no signatures, and as many containers as messages, the one
at position `i` being the wrap of message `i`; when a message fails to wrap it
returns the error of the first such message and no transaction. -/
theorem NewTransaction_spec [Inhabited Message] (X : Ext Msg Message ε) (fee : StdFee)
    (memo : String) (sdkMsgs : List Msg) :
    ((∀ msg ∈ sdkMsgs, ∃ m, X.SetMsg msg = .ok m) →
      ∃ tx, NewTransaction X fee memo sdkMsgs = .ok (.ok tx)
        ∧ tx.Fee = fee ∧ tx.Memo = memo ∧ tx.Signatures = []
        ∧ sdkMsgs.length = tx.Msgs.length
        ∧ ∀ (i : Nat) (h1 : i < sdkMsgs.length) (h2 : i < tx.Msgs.length),
            X.SetMsg (sdkMsgs.get ⟨i, h1⟩) = .ok (tx.Msgs.get ⟨i, h2⟩))
    ∧ ((∃ msg ∈ sdkMsgs, ∃ err, X.SetMsg msg = .error err) →
      ∃ pre msg post err, sdkMsgs = pre ++ msg :: post
        ∧ (∀ x ∈ pre, ∃ m, X.SetMsg x = .ok m) ∧ X.SetMsg msg = .error err
        ∧ NewTransaction X fee memo sdkMsgs = .ok (.error err)) := by
  constructor
  · intro hall
    obtain ⟨ms, hms⟩ := wrapAll_total X sdkMsgs hall
    have hpos := List.forall₂_iff_get.mp ((wrapAll_ok_iff X sdkMsgs ms).mp hms)
    refine ⟨{ toStdTxBase := NewStdTxBase fee [] memo, Msgs := ms }, ?_, rfl, rfl, rfl,
      hpos.1, hpos.2⟩
    simp only [NewTransaction, SetMsgs_eq, hms]
  · intro hfails
    obtain ⟨pre, msg, post, err, hsplit, hpre, hfail⟩ := first_failure_split X sdkMsgs hfails
    refine ⟨pre, msg, post, err, hsplit, hpre, hfail, ?_⟩
    simp only [NewTransaction, SetMsgs_eq, hsplit,
      wrapAll_first_error X pre msg post err hpre hfail]

/-- Witness for C9: one registered message wraps, and the transaction holds its
container; a registered message followed by an unregistered one gives an error. -/
theorem NewTransaction_spec_witness :
    ((∀ msg ∈ [ExMsg.registered [addrA, addrB]], ∃ m, exExt.SetMsg msg = .ok m)
      ∧ ∃ tx, NewTransaction exExt exFee "memo" [ExMsg.registered [addrA, addrB]] = .ok (.ok tx)
        ∧ tx.Fee = exFee ∧ tx.Memo = "memo" ∧ tx.Signatures = []
        ∧ [ExMsg.registered [addrA, addrB]].length = tx.Msgs.length
        ∧ ∀ (i : Nat) (h1 : i < [ExMsg.registered [addrA, addrB]].length)
            (h2 : i < tx.Msgs.length),
            exExt.SetMsg ([ExMsg.registered [addrA, addrB]].get ⟨i, h1⟩)
              = .ok (tx.Msgs.get ⟨i, h2⟩))
    ∧ ((∃ msg ∈ [ExMsg.registered [addrA], ExMsg.unregistered],
          ∃ err, exExt.SetMsg msg = .error err)
      ∧ ∃ pre msg post err,
          [ExMsg.registered [addrA], ExMsg.unregistered] = pre ++ msg :: post
          ∧ (∀ x ∈ pre, ∃ m, exExt.SetMsg x = .ok m) ∧ exExt.SetMsg msg = .error err
          ∧ NewTransaction exExt exFee "memo" [ExMsg.registered [addrA], ExMsg.unregistered]
              = .ok (.error err)) :=
  ⟨⟨fun msg hmsg => by
        have : msg = ExMsg.registered [addrA, addrB] := by simpa using hmsg
        exact ⟨{ held := some [addrA, addrB] }, by rw [this]; rfl⟩,
      (NewTransaction_spec exExt exFee "memo" [ExMsg.registered [addrA, addrB]]).1
        (fun msg hmsg => by
          have : msg = ExMsg.registered [addrA, addrB] := by simpa using hmsg
          exact ⟨{ held := some [addrA, addrB] }, by rw [this]; rfl⟩)⟩,
    ⟨⟨ExMsg.unregistered, by simp, _, rfl⟩,
      (NewTransaction_spec exExt exFee "memo" [ExMsg.registered [addrA], ExMsg.unregistered]).2
        ⟨ExMsg.unregistered, by simp, _, rfl⟩⟩⟩

/-- C10: message round trip: when unwrapping a wrapped message gives the message
back, then after a successful `SetMsgs(msgs)` the call `GetMsgs()` returns
exactly `msgs`, whatever messages the transaction held before. -/
theorem SetMsgs_GetMsgs_round_trip [Inhabited Msg] [Inhabited Message] (X : Ext Msg Message ε)
    (tx tx1 : Transaction Message) (sdkMsgs : List Msg)
    (hrt : ∀ msg m, X.SetMsg msg = .ok m → X.GetMsg m = msg)
    (hset : tx.SetMsgs X sdkMsgs = .ok (tx1, none)) :
    tx1.GetMsgs X = .ok sdkMsgs := by
  rw [SetMsgs_eq] at hset
  cases hw : wrapAll X sdkMsgs with
  | error err => simp [hw] at hset
  | ok ms =>
    simp only [hw, Except.ok.injEq, Prod.mk.injEq, and_true] at hset
    subst hset
    have hf := (wrapAll_ok_iff X sdkMsgs ms).mp hw
    rw [GetMsgs_eq]
    congr 1
    show ms.map X.GetMsg = sdkMsgs
    clear hw
    induction hf with
    | nil => rfl
    | cons h1 _ ih => simp [hrt _ _ h1, ih]

/-- Witness for C10: on the example transaction, which holds two messages, setting
one registered message and reading the messages back gives that message. -/
theorem SetMsgs_GetMsgs_round_trip_witness :
    (∀ msg m, exExt.SetMsg msg = .ok m → exExt.GetMsg m = msg)
    ∧ exTx.SetMsgs exExt [ExMsg.registered [addrC]]
        = .ok ({ exTx with Msgs := [{ held := some [addrC] }] }, none)
    ∧ Transaction.GetMsgs exExt { exTx with Msgs := [{ held := some [addrC] }] }
        = .ok [ExMsg.registered [addrC]] :=
  ⟨exExt_round_trip, rfl,
    SetMsgs_GetMsgs_round_trip exExt exTx { exTx with Msgs := [{ held := some [addrC] }] }
      [ExMsg.registered [addrC]] exExt_round_trip rfl⟩

/-- C11: `CanonicalSignBytes(chainId, accountNumber, sequence)` of a transaction
is the canonical sign bytes of the SignDoc with that account number, sequence
and chain id and with the memo, fee and messages of the transaction, in
unchanged order. -/
theorem CanonicalSignBytes_eq_signDoc (X : Ext Msg Message ε) (tx : Transaction Message)
    (cid : String) (num seq : Nat) :
    tx.CanonicalSignBytes X cid num seq
      = X.CanonicalSignBytes
          { AccountNumber := num, Sequence := seq, ChainID := cid, Memo := tx.Memo,
            Fee := tx.Fee, Msgs := tx.Msgs }
    ∧ tx.CanonicalSignBytes X cid num seq
      = SignDoc.CanonicalSignBytes X (NewSignDoc num seq cid tx.Memo tx.Fee tx.Msgs)
    ∧ (NewSignDoc num seq cid tx.Memo tx.Fee tx.Msgs).AccountNumber = num
    ∧ (NewSignDoc num seq cid tx.Memo tx.Fee tx.Msgs).Sequence = seq
    ∧ (NewSignDoc num seq cid tx.Memo tx.Fee tx.Msgs).ChainID = cid
    ∧ (NewSignDoc num seq cid tx.Memo tx.Fee tx.Msgs).Memo = tx.Memo
    ∧ (NewSignDoc num seq cid tx.Memo tx.Fee tx.Msgs).Fee = tx.Fee
    ∧ (NewSignDoc num seq cid tx.Memo tx.Fee tx.Msgs).Msgs = tx.Msgs :=
  ⟨rfl, rfl, rfl, rfl, rfl, rfl, rfl, rfl⟩

/-- C12: with every signer mention of every message the same address and at
least one mention, one signature, gas within the bound and no negative fee
component, `ValidateBasic` succeeds; with two messages naming two distinct
signers and one signature it fails with Unauthorized. -/
theorem ValidateBasic_one_signature [Inhabited Msg] (X : Ext Msg Message ε)
    (tx : Transaction Message) (hgas : tx.Fee.Gas ≤ X.MaxGasWanted)
    (hfee : ∀ coin ∈ tx.Fee.Amount, 0 ≤ coin.Amount) (hsig : tx.Signatures.length = 1) :
    (∀ a : AccAddress,
        (∃ m ∈ tx.Msgs, ∃ l, X.GetSigners (X.GetMsg m) = some l ∧ l ≠ []) →
        (∀ m ∈ tx.Msgs, ∃ l, X.GetSigners (X.GetMsg m) = some l ∧ ∀ x ∈ l, x = a) →
        tx.GetSigners X = .ok [a] ∧ tx.ValidateBasic X = .ok none)
    ∧ (Function.Injective X.String →
        ∀ (m1 m2 : Message) (A B : AccAddress), tx.Msgs = [m1, m2] →
          X.GetSigners (X.GetMsg m1) = some [A] → X.GetSigners (X.GetMsg m2) = some [B] →
          A ≠ B →
          ∃ e, tx.ValidateBasic X = .ok (some e) ∧ e.root = .ErrUnauthorized) := by
  have hg : ¬ tx.Fee.Gas > X.MaxGasWanted := not_lt.mpr hgas
  have hn : ¬ tx.Fee.Amount.IsAnyNegative = true := by
    rw [isAnyNegative_iff]
    rintro ⟨coin, hc, hlt⟩
    exact absurd (hfee coin hc) (not_le.mpr hlt)
  have hz : ¬ tx.Signatures.length = 0 := by omega
  constructor
  · intro a hsome hall
    have hhold : holdMessages X tx.Msgs := by
      intro m hm
      obtain ⟨l, hl, _⟩ := hall m hm
      simp [hl]
    have hne : signerMentions X tx.Msgs ≠ [] := by
      obtain ⟨m, hm, l, hl, hne⟩ := hsome
      obtain ⟨x, hx⟩ := List.exists_mem_of_ne_nil _ hne
      intro hc
      have : x ∈ signerMentions X tx.Msgs := (mem_signerMentions X _ x).mpr ⟨m, hm, l, hl, hx⟩
      rw [hc] at this
      simp at this
    have hall1 : ∀ x ∈ signerMentions X tx.Msgs, x = a := by
      intro x hx
      obtain ⟨m, hm, l, hl, hxl⟩ := (mem_signerMentions X _ x).mp hx
      obtain ⟨l1, hl1, heq⟩ := hall m hm
      rw [hl] at hl1
      simp only [Option.some.injEq] at hl1
      subst hl1
      exact heq x hxl
    have hfirst : firstOccurrences X tx.Msgs = [a] := by
      rw [firstOccurrences, ← keepFirst_eq_dedup]
      exact keepFirst_single X.String _ a hne hall1
    refine ⟨by rw [GetSigners_eq X tx hhold, hfirst], ?_⟩
    rw [ValidateBasic_fourth X tx hg hn hz hhold, hfirst, if_neg (by simp [hsig])]
  · intro hinj m1 m2 A B hm h1 h2 hAB
    have sAB : ¬ X.String A = X.String B := fun h => hAB (hinj h)
    have hhold : holdMessages X tx.Msgs := by
      intro m hmem
      rw [hm] at hmem
      simp only [List.mem_cons, List.mem_singleton, List.not_mem_nil, or_false] at hmem
      rcases hmem with h | h <;> subst h <;> simp [h1, h2]
    have hfirst : firstOccurrences X tx.Msgs = [A, B] := by
      rw [firstOccurrences, ← keepFirst_eq_dedup, signerMentions, hm]
      simp [h1, h2, keepFirst, sAB]
    exact ⟨_, by rw [ValidateBasic_fourth X tx hg hn hz hhold, hfirst,
      if_pos (by simp [hsig])], rfl⟩

/-- Witness for C12: two messages naming the signer A with one signature pass;
two messages naming A and B with one signature fail with Unauthorized. -/
theorem ValidateBasic_one_signature_witness :
    (exTxSameSigner.GetSigners exExt = .ok [addrA]
      ∧ exTxSameSigner.ValidateBasic exExt = .ok none)
    ∧ ∃ e, exTxTwoSigners.ValidateBasic exExt = .ok (some e) ∧ e.root = .ErrUnauthorized :=
  ⟨(ValidateBasic_one_signature exExt exTxSameSigner (by decide) (by decide) rfl).1 addrA
      ⟨{ held := some [addrA] }, by simp [exTxSameSigner], [addrA], rfl, by simp⟩
      (by
        intro m hm
        have hheld : m = { held := some [addrA] } := by simpa [exTxSameSigner] using hm
        subst hheld
        exact ⟨[addrA], rfl, by simp⟩),
    (ValidateBasic_one_signature exExt exTxTwoSigners (by decide) (by decide) rfl).2
      exString_injective { held := some [addrA] } { held := some [addrB] } addrA addrB
      rfl rfl rfl (by decide)⟩

/-- C13: signer positions are stable under appending messages: when
`GetSigners` returns for a transaction holding `ms` followed by `ms2` (as it
does when every container holds a message), it returns for a transaction
holding `ms` too, with a prefix of that list, so every position of the shorter
list holds the same address in the longer one. -/
theorem GetSigners_prefix_stable [Inhabited Msg] (X : Ext Msg Message ε)
    (base1 base2 : StdTxBase) (ms ms2 : List Message) :
    (∀ s2, Transaction.GetSigners X { toStdTxBase := base2, Msgs := ms ++ ms2 } = .ok s2 →
      ∃ s1, Transaction.GetSigners X { toStdTxBase := base1, Msgs := ms } = .ok s1
        ∧ s1 <+: s2
        ∧ ∀ i, i < s1.length → s2[i]? = s1[i]?)
    ∧ (holdMessages X (ms ++ ms2) →
      ∃ s2, Transaction.GetSigners X { toStdTxBase := base2, Msgs := ms ++ ms2 } = .ok s2) := by
  have hsplit : firstOccurrences X (ms ++ ms2)
      = firstOccurrences X ms
        ++ keepFirst X.String ([] ++ signerMentions X ms) (signerMentions X ms2) := by
    simp only [firstOccurrences, ← keepFirst_eq_dedup, signerMentions_append, keepFirst_append]
  constructor
  · intro s2 h2
    obtain ⟨hhold, hs2⟩ := (GetSigners_ok_iff X _ s2).mp h2
    have hhold1 : holdMessages X ms := fun m hm => hhold m (List.mem_append_left _ hm)
    refine ⟨firstOccurrences X ms, GetSigners_eq X _ hhold1, ?_, ?_⟩
    · rw [hs2]
      show firstOccurrences X ms <+: firstOccurrences X (ms ++ ms2)
      rw [hsplit]
      exact List.prefix_append _ _
    · intro i hi
      rw [hs2]
      show (firstOccurrences X (ms ++ ms2))[i]? = (firstOccurrences X ms)[i]?
      rw [hsplit]
      exact List.getElem?_append_left hi
  · intro hhold
    exact ⟨_, GetSigners_eq X _ hhold⟩

/-- Witness for C13: the signers [A, B] of the first message of the example
transaction are a prefix of its signers. -/
theorem GetSigners_prefix_stable_witness :
    holdMessages exExt exTx.Msgs
    ∧ ∃ s2, exTx.GetSigners exExt = .ok s2
      ∧ ∃ s1, Transaction.GetSigners exExt
            { toStdTxBase := exTxEmpty.toStdTxBase, Msgs := [{ held := some [addrA, addrB] }] }
          = .ok s1
        ∧ s1 <+: s2
        ∧ ∀ i, i < s1.length → s2[i]? = s1[i]? :=
  ⟨exTx_holdMessages,
    ((GetSigners_prefix_stable exExt exTxEmpty.toStdTxBase exTx.toStdTxBase
        [{ held := some [addrA, addrB] }] [{ held := some [addrB, addrC] }]).2
      exTx_holdMessages).elim
      (fun s2 h2 => ⟨s2, h2,
        (GetSigners_prefix_stable exExt exTxEmpty.toStdTxBase exTx.toStdTxBase
          [{ held := some [addrA, addrB] }] [{ held := some [addrB, addrC] }]).1 s2 h2⟩)⟩

/-- C14: `SetMemo` and `SetFee` replace their own field whole and touch nothing
else: after `SetMemo(m)` the memo is `m`, after `SetFee(f)` the fee has the gas
and amount of `f`, the other three fields are unchanged, and the result does
not depend on the previous value of the field. -/
theorem SetFee_SetMemo_frame (tx : Transaction Message) (memo : String) (fee : Fee) :
    ((tx.SetMemo memo).GetMemo = memo
      ∧ (tx.SetMemo memo).Msgs = tx.Msgs
      ∧ (tx.SetMemo memo).Fee = tx.Fee
      ∧ (tx.SetMemo memo).Signatures = tx.Signatures
      ∧ ∀ memo0 : String, Transaction.SetMemo { tx with Memo := memo0 } memo = tx.SetMemo memo)
    ∧ ((tx.SetFee fee).GetFee.GetGas = fee.GetGas
      ∧ (tx.SetFee fee).GetFee.GetAmount = fee.GetAmount
      ∧ (tx.SetFee fee).Msgs = tx.Msgs
      ∧ (tx.SetFee fee).Memo = tx.Memo
      ∧ (tx.SetFee fee).Signatures = tx.Signatures
      ∧ ∀ fee0 : StdFee, Transaction.SetFee { tx with Fee := fee0 } fee = tx.SetFee fee) :=
  ⟨⟨rfl, rfl, rfl, rfl, fun _ => rfl⟩, ⟨rfl, rfl, rfl, rfl, rfl, fun _ => rfl⟩⟩

/-! ### The Canonicalizer of the specification -/

/-- A lookup by name does not depend on the order of the fields. -/
theorem lookup_perm {l1 l2 : Representation} (p : l1.Perm l2) :
    (l1.map Prod.fst).Nodup → ∀ name, l1.lookup name = l2.lookup name := by
  induction p with
  | nil => intro _ _; rfl
  | cons x _ ih =>
    intro hnd name
    obtain ⟨kx, vx⟩ := x
    simp only [List.map_cons, List.nodup_cons] at hnd
    simp only [List.lookup_cons, ih hnd.2 name]
  | swap x y l =>
    intro hnd name
    obtain ⟨kx, vx⟩ := x
    obtain ⟨ky, vy⟩ := y
    simp only [List.map_cons, List.nodup_cons, List.mem_cons, not_or] at hnd
    have hxy : ky ≠ kx := hnd.1.1
    by_cases h1 : name = kx
    · have h2 : (name == ky) = false := by
        simp only [beq_eq_false_iff_ne, ne_eq, h1]
        exact fun hc => hxy hc.symm
      have h3 : (name == kx) = true := by simp [h1]
      simp only [List.lookup_cons, h2, h3]
    · have h2 : (name == kx) = false := by simpa using h1
      simp only [List.lookup_cons, h2]
  | trans p1 _ ih1 ih2 =>
    intro hnd name
    have hnd2 := (p1.map Prod.fst).nodup_iff.mp hnd
    rw [ih1 hnd name, ih2 hnd2 name]

/-- Whether a SignDoc is malformed does not depend on the order of the fields. -/
theorem malformed_perm {l1 l2 : Representation} (p : l1.Perm l2) :
    malformed l1 = malformed l2 := by
  apply Bool.eq_iff_iff.mpr
  simp only [malformed, List.any_eq_true]
  constructor
  · rintro ⟨f, hf, h⟩
    exact ⟨f, p.mem_iff.mp hf, h⟩
  · rintro ⟨f, hf, h⟩
    exact ⟨f, p.mem_iff.mpr hf, h⟩

/-- The Canonicalizer does not depend on the order in which a producer holds the
fields. -/
theorem canonicalize_perm (render : String → FieldValue → Bytes) {l1 l2 : Representation}
    (p : l1.Perm l2) (hnd : (l1.map Prod.fst).Nodup) :
    canonicalize render l1 = canonicalize render l2 := by
  have hl : ∀ name, l1.lookup name = l2.lookup name := lookup_perm p hnd
  simp only [canonicalize, malformed_perm p, hl]

/-- The Canonicalizer leaves out a field that holds its default value. -/
theorem canonicalize_default (render : String → FieldValue → Bytes) (rep : Representation)
    (name : String) (value : FieldValue) (hdef : value.isDefault = true)
    (hnew : name ∉ rep.map Prod.fst) :
    canonicalize render ((name, value) :: rep) = canonicalize render rep := by
  have hmal : malformed ((name, value) :: rep) = malformed rep := by
    cases value with
    | uint n => simp [malformed]
    | text t => simp [malformed]
    | fee gas amount => simp [malformed]
    | msgs serialized =>
      have hs : serialized = [] := by simpa [FieldValue.isDefault] using hdef
      simp [malformed, hs]
  have hnone : rep.lookup name = none := by
    apply List.lookup_eq_none_iff.mpr
    intro f hf
    simp only [bne_iff_ne, ne_eq]
    intro hc
    exact hnew (List.mem_map.mpr ⟨f, hf, hc.symm⟩)
  have hfield : ∀ key,
      (match ((name, value) :: rep).lookup key with
        | none => none
        | some v => if v.isDefault then none else some (render key v))
      = (match rep.lookup key with
        | none => none
        | some v => if v.isDefault then none else some (render key v)) := by
    intro key
    by_cases hk : key = name
    · subst hk
      simp [List.lookup_cons, hnone, hdef]
    · have hb : (key == name) = false := by simpa using hk
      simp [List.lookup_cons, hb]
  simp only [canonicalize, hmal, hfield]

theorem signDocFields_names {Message : Type} (ser : Message → Option Bytes)
    (sd : SignDoc Message) : (signDocFields ser sd).map Prod.fst = schema := rfl

theorem schema_nodup : schema.Nodup := by decide

/-- C15: sign-byte determinism, on the Canonicalizer of the specification: two
SignDocs built by `NewSignDoc` from inputs that are equal field by field have
the same `CanonicalSignBytes` result, bytes or failure, and so has every
producer that holds the fields of one of them in an order of its own, with or
without a further field at its default value. -/
theorem SignDoc_CanonicalSignBytes_deterministic (render : String → FieldValue → Bytes)
    (ser : Message → Option Bytes) (X : Ext Msg Message CanonError)
    (hX : X.CanonicalSignBytes = specCanonicalSignBytes render ser)
    (num1 num2 seq1 seq2 : Nat) (cid1 cid2 memo1 memo2 : String) (fee1 fee2 : StdFee)
    (msgs1 msgs2 : List Message)
    (hnum : num1 = num2) (hseq : seq1 = seq2) (hcid : cid1 = cid2) (hmemo : memo1 = memo2)
    (hgas : fee1.Gas = fee2.Gas) (hamount : fee1.Amount = fee2.Amount)
    (hmsgs : ∀ i : Nat, msgs1[i]? = msgs2[i]?)
    (rep1 rep2 : Representation)
    (h1 : rep1.Perm (signDocFields ser (NewSignDoc num1 seq1 cid1 memo1 fee1 msgs1)))
    (h2 : rep2.Perm (signDocFields ser (NewSignDoc num2 seq2 cid2 memo2 fee2 msgs2))) :
    (NewSignDoc num1 seq1 cid1 memo1 fee1 msgs1).CanonicalSignBytes X
      = (NewSignDoc num2 seq2 cid2 memo2 fee2 msgs2).CanonicalSignBytes X
    ∧ canonicalize render rep1
      = (NewSignDoc num1 seq1 cid1 memo1 fee1 msgs1).CanonicalSignBytes X
    ∧ canonicalize render rep1 = canonicalize render rep2
    ∧ ∀ (name : String) (value : FieldValue), value.isDefault = true →
        name ∉ rep1.map Prod.fst →
        canonicalize render ((name, value) :: rep1) = canonicalize render rep2 := by
  have hfee : fee1 = fee2 := by
    cases fee1
    cases fee2
    simp only [StdFee.mk.injEq]
    exact ⟨hamount, hgas⟩
  have hm : msgs1 = msgs2 := List.ext_getElem? hmsgs
  subst hnum hseq hcid hmemo hfee hm
  have hnd : ∀ rep : Representation,
      rep.Perm (signDocFields ser (NewSignDoc num1 seq1 cid1 memo1 fee1 msgs1)) →
      (rep.map Prod.fst).Nodup := by
    intro rep hp
    have hk := hp.map Prod.fst
    rw [signDocFields_names] at hk
    exact hk.nodup_iff.mpr schema_nodup
  have e1 : canonicalize render rep1
      = (NewSignDoc num1 seq1 cid1 memo1 fee1 msgs1).CanonicalSignBytes X := by
    rw [SignDoc.CanonicalSignBytes, hX, specCanonicalSignBytes]
    exact canonicalize_perm render h1 (hnd rep1 h1)
  have e2 : canonicalize render rep2
      = (NewSignDoc num1 seq1 cid1 memo1 fee1 msgs1).CanonicalSignBytes X := by
    rw [SignDoc.CanonicalSignBytes, hX, specCanonicalSignBytes]
    exact canonicalize_perm render h2 (hnd rep2 h2)
  refine ⟨rfl, e1, e1.trans e2.symm, ?_⟩
  intro name value hdef hnew
  rw [canonicalize_default render rep1 name value hdef hnew]
  exact e1.trans e2.symm

/-- Witness for C15: the fields of the example SignDoc, held once in the order
of `NewSignDoc` and once in the reverse order. -/
theorem SignDoc_CanonicalSignBytes_deterministic_witness :
    canonicalize exRender (signDocFields exSer (NewSignDoc 7 3 "chain" "memo" exFee exTx.Msgs))
      = canonicalize exRender
          (signDocFields exSer (NewSignDoc 7 3 "chain" "memo" exFee exTx.Msgs)).reverse
    ∧ (NewSignDoc 7 3 "chain" "memo" exFee exTx.Msgs).CanonicalSignBytes exExtCanon
      = (NewSignDoc (3 + 4) (1 + 2) "chain" "memo"
          { Amount := [{ Denom := "atom", Amount := 5 }], Gas := 200000 }
          [{ held := some [addrA, addrB] }, { held := some [addrB, addrC] }]).CanonicalSignBytes
          exExtCanon :=
  ⟨(SignDoc_CanonicalSignBytes_deterministic exRender exSer exExtCanon rfl 7 (3 + 4) 3 (1 + 2)
      "chain" "chain" "memo" "memo" exFee
      { Amount := [{ Denom := "atom", Amount := 5 }], Gas := 200000 } exTx.Msgs
      [{ held := some [addrA, addrB] }, { held := some [addrB, addrC] }]
      rfl rfl rfl rfl rfl rfl (fun _ => rfl)
      (signDocFields exSer (NewSignDoc 7 3 "chain" "memo" exFee exTx.Msgs))
      (signDocFields exSer (NewSignDoc 7 3 "chain" "memo" exFee exTx.Msgs)).reverse
      (List.Perm.refl _) (List.reverse_perm _)).2.2.1,
    (SignDoc_CanonicalSignBytes_deterministic exRender exSer exExtCanon rfl 7 (3 + 4) 3 (1 + 2)
      "chain" "chain" "memo" "memo" exFee
      { Amount := [{ Denom := "atom", Amount := 5 }], Gas := 200000 } exTx.Msgs
      [{ held := some [addrA, addrB] }, { held := some [addrB, addrC] }]
      rfl rfl rfl rfl rfl rfl (fun _ => rfl)
      (signDocFields exSer (NewSignDoc 7 3 "chain" "memo" exFee exTx.Msgs))
      (signDocFields exSer (NewSignDoc 7 3 "chain" "memo" exFee exTx.Msgs)).reverse
      (List.Perm.refl _) (List.reverse_perm _)).1⟩

/-- C16: determinism of signer derivation: whatever lawful implementations of
the map `seen` two runs of `GetSigners` use, however these keep or order their
entries, and whatever fee, memo and signatures the two transactions have, the
runs on the same message sequence give the same result; it is an address list
when every container holds a message. -/
theorem GetSigners_depends_on_messages_only [Inhabited Msg] {σ1 σ2 : Type}
    (M1 : GoMap σ1) (M2 : GoMap σ2) (hM1 : M1.Lawful) (hM2 : M2.Lawful)
    (X : Ext Msg Message ε) (base1 base2 : StdTxBase) (msgs : List Message) :
    Transaction.GetSignersWith M1 X { toStdTxBase := base1, Msgs := msgs }
      = Transaction.GetSignersWith M2 X { toStdTxBase := base2, Msgs := msgs }
    ∧ Transaction.GetSignersWith M1 X { toStdTxBase := base1, Msgs := msgs }
      = Transaction.GetSigners X { toStdTxBase := base2, Msgs := msgs }
    ∧ (holdMessages X msgs →
      ∃ signers, Transaction.GetSigners X { toStdTxBase := base1, Msgs := msgs }
        = .ok signers) := by
  by_cases h : holdMessages X msgs
  · refine ⟨?_, ?_, fun _ => ⟨_, GetSigners_eq X _ h⟩⟩
    · rw [GetSignersWith_eq M1 hM1 X _ h, GetSignersWith_eq M2 hM2 X _ h]
    · rw [GetSignersWith_eq M1 hM1 X _ h, GetSigners_eq X _ h]
  · refine ⟨?_, ?_, fun hc => absurd hc h⟩
    · rw [GetSignersWith_fault M1 X _ h, GetSignersWith_fault M2 X _ h]
    · rw [GetSignersWith_fault M1 X _ h, GetSigners_fault X _ h]

/-- Witness for C16: the example messages, run once with the map kept as a list
of stores on a transaction without signatures and once with the map kept as a
lookup function on the signed transaction. -/
theorem GetSigners_depends_on_messages_only_witness :
    (storeLog.Lawful ∧ SeenMap.impl.Lawful)
    ∧ Transaction.GetSignersWith storeLog exExt exTxUnsigned
      = Transaction.GetSignersWith SeenMap.impl exExt exTx
    ∧ Transaction.GetSignersWith storeLog exExt exTxUnsigned = exTx.GetSigners exExt :=
  ⟨⟨storeLog_lawful, SeenMap.impl_lawful⟩,
    (GetSigners_depends_on_messages_only storeLog SeenMap.impl storeLog_lawful
      SeenMap.impl_lawful exExt exTxUnsigned.toStdTxBase exTx.toStdTxBase exTx.Msgs).1,
    (GetSigners_depends_on_messages_only storeLog SeenMap.impl storeLog_lawful
      SeenMap.impl_lawful exExt exTxUnsigned.toStdTxBase exTx.toStdTxBase exTx.Msgs).2.1⟩

/-- C17: a transaction whose messages name no signer never passes
`ValidateBasic`; when every container holds a message it returns an error,
which, when the two fee checks pass, is NoSignatures for an empty signature
list and Unauthorized otherwise. -/
theorem ValidateBasic_no_signer_fails [Inhabited Msg] (X : Ext Msg Message ε)
    (tx : Transaction Message)
    (hnone : ∀ m ∈ tx.Msgs, ∀ l, X.GetSigners (X.GetMsg m) = some l → l = []) :
    tx.ValidateBasic X ≠ .ok none
    ∧ (holdMessages X tx.Msgs →
      tx.GetSigners X = .ok []
      ∧ (∃ e, tx.ValidateBasic X = .ok (some e))
      ∧ (tx.Fee.Gas ≤ X.MaxGasWanted → (∀ coin ∈ tx.Fee.Amount, 0 ≤ coin.Amount) →
          (tx.Signatures = [] → tx.ValidateBasic X = .ok (some RootError.ErrNoSignatures.bare))
          ∧ (tx.Signatures ≠ [] →
            ∃ e, tx.ValidateBasic X = .ok (some e) ∧ e.root = .ErrUnauthorized))) := by
  have hm : signerMentions X tx.Msgs = [] := by
    apply List.eq_nil_iff_forall_not_mem.mpr
    intro a ha
    obtain ⟨m, hmem, l, hl, hx⟩ := (mem_signerMentions X _ a).mp ha
    rw [hnone m hmem l hl] at hx
    simp at hx
  have hfirst : firstOccurrences X tx.Msgs = [] := by
    rw [firstOccurrences, ← keepFirst_eq_dedup, hm]
    rfl
  have hpass : ∀ res, tx.ValidateBasic X = .ok res → ∃ e, res = some e := by
    intro res hres
    rw [ValidateBasic_eq] at hres
    by_cases h1 : tx.Fee.Gas > X.MaxGasWanted
    · rw [if_pos h1] at hres
      exact ⟨_, by cases hres; rfl⟩
    · by_cases h2 : tx.Fee.Amount.IsAnyNegative = true
      · rw [if_neg h1, if_pos h2] at hres
        exact ⟨_, by cases hres; rfl⟩
      · by_cases h3 : tx.Signatures.length = 0
        · rw [if_neg h1, if_neg h2, if_pos h3] at hres
          exact ⟨_, by cases hres; rfl⟩
        · rw [if_neg h1, if_neg h2, if_neg h3] at hres
          by_cases hhold : holdMessages X tx.Msgs
          · rw [GetSigners_eq X tx hhold, hfirst] at hres
            simp only at hres
            rw [if_pos (by simpa using h3)] at hres
            exact ⟨_, by cases hres; rfl⟩
          · rw [GetSigners_fault X tx hhold] at hres
            cases hres
  refine ⟨?_, ?_⟩
  · intro hc
    obtain ⟨e, he⟩ := hpass none hc
    cases he
  · intro hhold
    refine ⟨by rw [GetSigners_eq X tx hhold, hfirst], ?_, ?_⟩
    · by_cases h1 : tx.Fee.Gas > X.MaxGasWanted
      · exact ⟨_, by rw [ValidateBasic_eq, if_pos h1]⟩
      · by_cases h2 : tx.Fee.Amount.IsAnyNegative = true
        · exact ⟨_, by rw [ValidateBasic_eq, if_neg h1, if_pos h2]⟩
        · by_cases h3 : tx.Signatures.length = 0
          · exact ⟨_, by rw [ValidateBasic_eq, if_neg h1, if_neg h2, if_pos h3]⟩
          · exact ⟨_, by rw [ValidateBasic_fourth X tx h1 h2 h3 hhold, hfirst,
              if_pos (by simpa using h3)]⟩
    · intro hgas hfee
      have h1 : ¬ tx.Fee.Gas > X.MaxGasWanted := not_lt.mpr hgas
      have h2 : ¬ tx.Fee.Amount.IsAnyNegative = true := by
        rw [isAnyNegative_iff]
        rintro ⟨coin, hc, hlt⟩
        exact absurd (hfee coin hc) (not_le.mpr hlt)
      constructor
      · intro hsig
        rw [ValidateBasic_eq, if_neg h1, if_neg h2, if_pos (by simp [hsig])]
      · intro hsig
        have h3 : ¬ tx.Signatures.length = 0 := fun h => hsig (List.length_eq_zero.mp h)
        exact ⟨_, by rw [ValidateBasic_fourth X tx h1 h2 h3 hhold, hfirst,
          if_pos (by simpa using h3)], rfl⟩

/-- Witness for C17: a transaction without messages and with one signature
fails with Unauthorized. -/
theorem ValidateBasic_no_signer_fails_witness :
    (∀ m ∈ exTxNoMsgs.Msgs, ∀ l, exExt.GetSigners (exExt.GetMsg m) = some l → l = [])
    ∧ holdMessages exExt exTxNoMsgs.Msgs
    ∧ exTxNoMsgs.ValidateBasic exExt ≠ .ok none
    ∧ exTxNoMsgs.GetSigners exExt = .ok []
    ∧ ∃ e, exTxNoMsgs.ValidateBasic exExt = .ok (some e) ∧ e.root = .ErrUnauthorized :=
  ⟨by simp [exTxNoMsgs], by simp [holdMessages, exTxNoMsgs],
    (ValidateBasic_no_signer_fails exExt exTxNoMsgs (by simp [exTxNoMsgs])).1,
    ((ValidateBasic_no_signer_fails exExt exTxNoMsgs (by simp [exTxNoMsgs])).2
      (by simp [holdMessages, exTxNoMsgs])).1,
    ((((ValidateBasic_no_signer_fails exExt exTxNoMsgs (by simp [exTxNoMsgs])).2
      (by simp [holdMessages, exTxNoMsgs])).2.2
      (by decide) (by decide)).2 (by simp [exTxNoMsgs]))⟩

/-- What the Unauthorized error of `ValidateBasic` carries: the format string is
handed the signer list itself and the number of signatures. -/
theorem ValidateBasic_unauthorized_args [Inhabited Msg] (X : Ext Msg Message ε)
    (tx : Transaction Message) (e : SdkError) (h : tx.ValidateBasic X = .ok (some e))
    (hroot : e.root = .ErrUnauthorized) :
    e.format = "wrong number of signers; expected %d, got %d"
    ∧ ∃ signers, tx.GetSigners X = .ok signers
      ∧ e.args = [.addrs signers, .int tx.Signatures.length] := by
  rw [ValidateBasic_eq] at h
  by_cases h1 : tx.Fee.Gas > X.MaxGasWanted
  · rw [if_pos h1] at h
    cases h
    cases hroot
  · by_cases h2 : tx.Fee.Amount.IsAnyNegative = true
    · rw [if_neg h1, if_pos h2] at h
      cases h
      cases hroot
    · by_cases h3 : tx.Signatures.length = 0
      · rw [if_neg h1, if_neg h2, if_pos h3] at h
        cases h
        cases hroot
      · rw [if_neg h1, if_neg h2, if_neg h3] at h
        cases hg : tx.GetSigners X with
        | error p =>
          rw [hg] at h
          cases h
        | ok signers =>
          rw [hg] at h
          simp only at h
          by_cases h4 : tx.Signatures.length ≠ signers.length
          · rw [if_pos h4] at h
            cases h
            exact ⟨rfl, signers, rfl, rfl⟩
          · rw [if_neg h4] at h
            cases h

/-- C18 (the code departs from it): on the example transaction with three
unique signers and two signatures, `ValidateBasic` fails with Unauthorized, and
the argument it hands to the first `%d` of the message is the list of signers
[A, B, C], not their number 3; the second is the number of signatures, 2. -/
theorem ValidateBasic_unauthorized_reports_signer_list :
    exTx.ValidateBasic exExt
      = .ok (some (Wrapf .ErrUnauthorized "wrong number of signers; expected %d, got %d"
          [.addrs [addrA, addrB, addrC], .int 2]))
    ∧ FmtArg.addrs [addrA, addrB, addrC] ≠ FmtArg.int 3 := by
  refine ⟨?_, by decide⟩
  rw [ValidateBasic_fourth exExt exTx (by decide) (by decide) (by decide) exTx_holdMessages,
    exTx_firstOccurrences]
  rfl

end Claims

end CodecStd

/-! ## The claim on `SimulateMsgUnjail` -/

namespace SlashingSimulation

open CodecStd (Go Panic Bytes Coins)

/-- C19: in `SimulateMsgUnjail`, with a jailed validator, signing info and
self-delegation selected and the transaction delivered, when the validator is
tombstoned, or the block time is before `JailedUntil`, or the self-delegation
tokens are below the minimum self-delegation: if delivery succeeded (result not
nil, error nil) the operation returns an error whose text names the first of
the three conditions that holds; otherwise it returns an operation message
marked not-ok and no error. -/
theorem SimulateMsgUnjail_expected_failure (S : SimExt) (run : UnjailRun)
    (validator : Validator) (simAccount : SimAccount) (info : ValidatorSigningInfo)
    (selfDel : Delegation) (account : AuthAccount) (fees : Coins)
    (hv : run.validator = some validator) (ha : run.simAccount = some simAccount)
    (hj : validator.Jailed = true) (hi : run.info = some info)
    (hd : run.selfDel = some selfDel) (hacc : run.account = some account)
    (hf : run.fees = .ok fees)
    (hfail : info.Tombstoned = true ∨ run.blockTime < info.JailedUntil
      ∨ S.SelfDelegationTokens validator selfDel < validator.MinSelfDelegation) :
    (run.res ≠ none ∧ run.err = none →
      ∃ text, SimulateMsgUnjail S run
          = .ok (.NewOperationMsg (NewMsgUnjail validator.OperatorAddress) true "", [], some text)
        ∧ (info.Tombstoned = true →
            text = "validator should not have been unjailed if validator tombstoned")
        ∧ (info.Tombstoned = false → run.blockTime < info.JailedUntil →
            text = "validator unjailed while validator still in jail period")
        ∧ (info.Tombstoned = false → ¬ run.blockTime < info.JailedUntil →
            text = "validator unjailed even though self-delegation too low"))
    ∧ (¬ (run.res ≠ none ∧ run.err = none) →
      SimulateMsgUnjail S run
        = .ok (.NewOperationMsg (NewMsgUnjail validator.OperatorAddress) false "", [], none)
      ∧ (OperationMsg.NewOperationMsg (NewMsgUnjail validator.OperatorAddress) false "").OK
        = false) := by
  have hrun : SimulateMsgUnjail S run
      = afterDeliver S run validator info selfDel (NewMsgUnjail validator.OperatorAddress) := by
    simp only [SimulateMsgUnjail, hv, ha, hj, hi, hd, hacc, hf]
    rfl
  have hcond : (info.Tombstoned
      || decide (run.blockTime < info.JailedUntil)
      || decide (S.SelfDelegationTokens validator selfDel < validator.MinSelfDelegation))
      = true := by
    rcases hfail with h | h | h
    · simp [h]
    · simp [h]
    · simp [h]
  constructor
  · rintro ⟨hres, herr⟩
    have hdel : (run.res.isSome && run.err.isNone) = true := by
      simp [herr, Option.isSome_iff_ne_none, hres]
    rw [hrun]
    simp only [afterDeliver, hcond, hdel, if_true]
    by_cases ht : info.Tombstoned = true
    · exact ⟨_, by rw [if_pos ht], fun _ => rfl, fun hc => by simp [ht] at hc,
        fun hc => by simp [ht] at hc⟩
    · have htf : info.Tombstoned = false := by simpa using ht
      by_cases hb : run.blockTime < info.JailedUntil
      · exact ⟨_, by rw [if_neg ht, if_pos hb], fun hc => absurd hc ht, fun _ _ => rfl,
          fun _ hc => absurd hb hc⟩
      · have hlow : S.SelfDelegationTokens validator selfDel < validator.MinSelfDelegation := by
          rcases hfail with h | h | h
          · exact absurd h ht
          · exact absurd h hb
          · exact h
        exact ⟨_, by rw [if_neg ht, if_neg hb, if_pos hlow], fun hc => absurd hc ht,
          fun _ hc => absurd hc hb, fun _ _ => rfl⟩
  · intro hnot
    have hdel : (run.res.isSome && run.err.isNone) = false := by
      by_cases hres : run.res = none
      · simp [hres]
      · have herr : run.err ≠ none := fun hc => hnot ⟨hres, hc⟩
        cases he : run.err with
        | none => exact absurd he herr
        | some _ => simp
    rw [hrun]
    simp only [afterDeliver, hcond, hdel, if_true]
    exact ⟨rfl, rfl⟩

/-- Witness for C19: the example run, whose validator is not tombstoned and is
still in its jail period while the delivery succeeded, returns the error on the
jail period. -/
theorem SimulateMsgUnjail_expected_failure_witness :
    ∃ text, SimulateMsgUnjail exSimExt exRun
        = .ok (.NewOperationMsg (NewMsgUnjail [1]) true "", [], some text)
      ∧ text = "validator unjailed while validator still in jail period" :=
  ((SimulateMsgUnjail_expected_failure exSimExt exRun
      { OperatorAddress := [1], Jailed := true, MinSelfDelegation := 10 } { Address := [1] }
      { Tombstoned := false, JailedUntil := 500 } { Shares := 3 }
      { Address := [1], AccountNumber := 0, Sequence := 4 } []
      rfl rfl rfl rfl rfl rfl rfl (Or.inr (Or.inl (by decide)))).1
    ⟨by simp [exRun], rfl⟩).elim
    (fun text h => ⟨text, h.1, h.2.2.1 rfl (by decide)⟩)

end SlashingSimulation
